import Mathlib

/-!
Verification development for the Stock-M data-flow core
(`src/dataflow/utils.py`, `src/dataflow/data_manager.py`).

Modelling conventions, chosen once for the whole file:

* Python floats are modelled as `FV`: an exact rational (`FV.num`), the two
  IEEE infinities, or `FV.nan`.  The arithmetic on `FV` follows IEEE-754
  semantics for the operations the source actually performs (in particular
  `x / 0`, `inf` and `NaN` propagation).  Base price/volume data coming from
  upstream is finite, so base columns are plain rationals `ℚ`; derived
  indicator columns, which can become `NaN`/`inf` through the arithmetic of
  the pipeline, are `FV`.
* `float('sqrt')` appears only inside the rolling standard deviation.  It is
  modelled by `ratSqrt`, a computable rational square root that is exact on
  perfect squares (in particular `ratSqrt 0 = 0`, the only value the theorems
  below evaluate it at).
* A pandas `DataFrame` holding one time series is a `List Row`: the base
  columns `trade_date`, `close`, `high`, `low`, `vol` are fields of `Row`
  (the data model of the spec makes them required, so the source's
  `'close' in df.columns` style guards are always true and are dropped), and
  derived columns live in the per-row association list `Row.extra`.  The
  f-string column names of the source (`f"ma{p}"`, `"boll_upper"`, ...) are
  modelled by the structured key type `ColKey`, which is in bijection with
  the names the source generates.
* `df.sort_values('trade_date').reset_index(drop=True)` is modelled by
  `sortRows`, an insertion sort on `trade_date`.  All claims below that
  depend on the sort are stated under the spec's data-model invariant that
  timestamps within one series are unique, under which every correct sort
  produces the same list, so the choice of sorting algorithm is immaterial.
* `time.time()` timestamps are rationals.  `RateLimiter.acquire` suspends
  only at `asyncio.sleep`, so one prune/check/append round is atomic under
  asyncio's cooperative scheduling; an execution with any number of
  concurrent callers is therefore a sequence of such rounds at
  nondecreasing wall-clock times, modelled by `runAcquires`.
-/

namespace StockM

/-- IEEE-style float value: an exact rational, `+inf`, `-inf` or `NaN`. -/
inductive FV where
  | num (q : ℚ)
  | pinf
  | ninf
  | nan
deriving DecidableEq, Repr

namespace FV

/-- IEEE addition. -/
def add : FV → FV → FV
  | nan, _ => nan
  | _, nan => nan
  | pinf, ninf => nan
  | ninf, pinf => nan
  | pinf, _ => pinf
  | _, pinf => pinf
  | ninf, _ => ninf
  | _, ninf => ninf
  | num a, num b => num (a + b)

/-- IEEE subtraction. -/
def sub : FV → FV → FV
  | nan, _ => nan
  | _, nan => nan
  | pinf, pinf => nan
  | ninf, ninf => nan
  | pinf, _ => pinf
  | _, pinf => ninf
  | ninf, _ => ninf
  | _, ninf => pinf
  | num a, num b => num (a - b)

/-- IEEE multiplication (`0 * inf = NaN`). -/
def mul : FV → FV → FV
  | nan, _ => nan
  | _, nan => nan
  | pinf, pinf => pinf
  | pinf, ninf => ninf
  | ninf, pinf => ninf
  | ninf, ninf => pinf
  | pinf, num b => if 0 < b then pinf else if b < 0 then ninf else nan
  | num a, pinf => if 0 < a then pinf else if a < 0 then ninf else nan
  | ninf, num b => if 0 < b then ninf else if b < 0 then pinf else nan
  | num a, ninf => if 0 < a then ninf else if a < 0 then pinf else nan
  | num a, num b => num (a * b)

/-- IEEE division (`a / 0` is a signed infinity for `a ≠ 0` and `NaN` for
`a = 0`; rationals have no `-0`, so `0` is treated as `+0`). -/
def div : FV → FV → FV
  | nan, _ => nan
  | _, nan => nan
  | pinf, pinf => nan
  | pinf, ninf => nan
  | ninf, pinf => nan
  | ninf, ninf => nan
  | pinf, num b => if 0 ≤ b then pinf else ninf
  | ninf, num b => if 0 ≤ b then ninf else pinf
  | num _, pinf => num 0
  | num _, ninf => num 0
  | num a, num b =>
      if b = 0 then (if 0 < a then pinf else if a < 0 then ninf else nan)
      else num (a / b)

end FV

/-! ## Rolling-window primitives (pandas `Series.rolling` / `ewm` / `diff`) -/

/-- The trailing window of width `p` (with `min_periods=1`) ending at row
`i`: the last `min (i+1) p` of the first `i+1` entries. -/
def winAt (p : ℕ) (xs : List ℚ) (i : ℕ) : List ℚ :=
  (xs.take (i + 1)).drop (i + 1 - p)

/-- Arithmetic mean of a list of rationals (division by zero yields `0`,
only ever applied to nonempty windows). -/
def qmean (xs : List ℚ) : ℚ := xs.sum / (xs.length : ℚ)

/-- `Series.rolling(window=p, min_periods=1).mean()`. -/
def rollingMean (p : ℕ) (xs : List ℚ) : List ℚ :=
  (List.range xs.length).map (fun i => qmean (winAt p xs i))

/-- Unbiased sample variance (`ddof=1`), the convention of pandas
`rolling(...).std()`; only applied to windows of length at least 2. -/
def sampleVar (xs : List ℚ) : ℚ :=
  (xs.map (fun x => (x - qmean xs) * (x - qmean xs))).sum / ((xs.length : ℚ) - 1)

/-- Computable rational square root, exact on perfect squares; stands in for
float `sqrt` (itself approximate).  The theorems below evaluate it only at
`0`, where it is exact. -/
def ratSqrt (q : ℚ) : ℚ := (Nat.sqrt (q.num.toNat * q.den) : ℚ) / (q.den : ℚ)

/-- `Series.rolling(window=p, min_periods=1).std()`: pandas emits `NaN`
whenever the window holds fewer than 2 observations (`ddof=1` divides by
`count - 1`). -/
def rollingStd (p : ℕ) (xs : List ℚ) : List FV :=
  (List.range xs.length).map (fun i =>
    let w := winAt p xs i
    if w.length < 2 then FV.nan else FV.num (ratSqrt (sampleVar w)))

/-- Maximum of a nonempty list (`0` for the empty list, never reached). -/
def listMax : List ℚ → ℚ
  | [] => 0
  | x :: r => r.foldl max x

/-- Minimum of a nonempty list (`0` for the empty list, never reached). -/
def listMin : List ℚ → ℚ
  | [] => 0
  | x :: r => r.foldl min x

/-- `Series.rolling(window=p, min_periods=1).max()`. -/
def rollingMax (p : ℕ) (xs : List ℚ) : List ℚ :=
  (List.range xs.length).map (fun i => listMax (winAt p xs i))

/-- `Series.rolling(window=p, min_periods=1).min()`. -/
def rollingMin (p : ℕ) (xs : List ℚ) : List ℚ :=
  (List.range xs.length).map (fun i => listMin (winAt p xs i))

/-- Tail of `Series.diff()`: consecutive differences given the previous
value. -/
def diffAux (prev : ℚ) : List ℚ → List FV
  | [] => []
  | x :: rest => FV.num (x - prev) :: diffAux x rest

/-- `Series.diff()`: `NaN` at the first row, `x[i] - x[i-1]` afterwards. -/
def diffFV : List ℚ → List FV
  | [] => []
  | x :: rest => FV.nan :: diffAux x rest

/-- Tail of `Series.pct_change()`. -/
def pctChangeAux (prev : ℚ) : List ℚ → List FV
  | [] => []
  | x :: rest => FV.div (FV.num (x - prev)) (FV.num prev) :: pctChangeAux x rest

/-- `Series.pct_change()`: `NaN` at the first row, `(x[i] - x[i-1])/x[i-1]`
afterwards (a signed infinity or `NaN` when `x[i-1] = 0`, as for floats). -/
def pctChange : List ℚ → List FV
  | [] => []
  | x :: rest => FV.nan :: pctChangeAux x rest

/-- Tail of `Series.ewm(alpha=a, adjust=False).mean()`: the recursion
`y[t] = a*x[t] + (1-a)*y[t-1]`. -/
def ewmAux (a : ℚ) (prev : FV) : List FV → List FV
  | [] => []
  | x :: rest =>
      let cur := FV.add (FV.mul (FV.num a) x) (FV.mul (FV.num (1 - a)) prev)
      cur :: ewmAux a cur rest

/-- `Series.ewm(alpha=a, adjust=False).mean()`, seeded with the first
observation.  (pandas additionally skips `NaN` inputs; the series this
pipeline feeds to `ewm` never contain `NaN`, so plain recursion is
faithful.) -/
def ewm (a : ℚ) : List FV → List FV
  | [] => []
  | x :: rest => x :: ewmAux a x rest

/-! ## DataFrame model -/

/-- Structured key for the derived columns the pipeline writes, in bijection
with the source's string column names (`f"ma{p}"`, `f"vol_ma{p}"`,
`"pct_change"`, `f"rsi{p}"`, `"k"`, `"d"`, `"j"`, `"boll_mid"`,
`"boll_upper"`, `"boll_lower"`, `"macd_dif"`, `"macd_dea"`, `"macd_macd"`). -/
inductive ColKey where
  | ma (p : ℕ)
  | volMa (p : ℕ)
  | pctChg
  | rsi (p : ℕ)
  | kCol
  | dCol
  | jCol
  | bollMid
  | bollUpper
  | bollLower
  | macdDif
  | macdDea
  | macdMacd
deriving DecidableEq, Repr

/-- One row of a time-series DataFrame: required base columns plus the
association list of derived columns. -/
structure Row where
  trade_date : ℤ
  close : ℚ
  high : ℚ
  low : ℚ
  vol : ℚ
  extra : List (ColKey × FV)
deriving DecidableEq, Repr

/-- Look up a derived column in a row's association list. -/
def lookupK (k : ColKey) : List (ColKey × FV) → Option FV
  | [] => none
  | (k2, v) :: rest => if k2 = k then some v else lookupK k rest

/-- Set a derived column in a row's association list, replacing an existing
entry in place (pandas `df[name] = series` overwrites the column). -/
def setK (k : ColKey) (v : FV) : List (ColKey × FV) → List (ColKey × FV)
  | [] => [(k, v)]
  | (k2, v2) :: rest => if k2 = k then (k, v) :: rest else (k2, v2) :: setK k v rest

/-- `df[name] = vals`: write one derived column, row-aligned. -/
def setColAll (df : List Row) (k : ColKey) (vals : List FV) : List Row :=
  List.zipWith (fun r v => { r with extra := setK k v r.extra }) df vals

/-- The `close` column. -/
def closes (df : List Row) : List ℚ := df.map Row.close

/-- The `high` column. -/
def highs (df : List Row) : List ℚ := df.map Row.high

/-- The `low` column. -/
def lows (df : List Row) : List ℚ := df.map Row.low

/-- The `vol` column. -/
def vols (df : List Row) : List ℚ := df.map Row.vol

/-- The `trade_date` column. -/
def dates (df : List Row) : List ℤ := df.map Row.trade_date

/-- The value of derived column `key` at row `i` (`none` when the row does
not exist or the column was never written there). -/
def colVal (df : List Row) (key : ColKey) (i : ℕ) : Option FV :=
  match df[i]? with
  | some r => lookupK key r.extra
  | none => none

/-- `df.sort_values('trade_date').reset_index(drop=True)`. -/
def sortRows (df : List Row) : List Row :=
  List.insertionSort (fun a b => a.trade_date ≤ b.trade_date) df

/-! ## Indicator configuration (`TECHNICAL_INDICATORS_CONFIG` in config.py) -/

/-- `config['ma']['periods']`. -/
def maPeriodsCfg : List ℕ := [5, 10, 20, 60]

/-- `config['ma']['volume_periods']`. -/
def volPeriodsCfg : List ℕ := [5, 10]

/-- `config['rsi']['periods']`. -/
def rsiPeriodsCfg : List ℕ := [6, 12, 24]

/-- `config['kdj']['period']`. -/
def kdjPeriodCfg : ℕ := 9

/-- `config['kdj']['k_period']`. -/
def kdjKCfg : ℕ := 3

/-- `config['kdj']['d_period']`. -/
def kdjDCfg : ℕ := 3

/-- `config['bollinger_bands']['period']`. -/
def bollPeriodCfg : ℕ := 20

/-- `config['bollinger_bands']['std_dev']`. -/
def bollStdCfg : ℚ := 2

/-- `config['macd']['fast_period']`. -/
def macdFastCfg : ℕ := 12

/-- `config['macd']['slow_period']`. -/
def macdSlowCfg : ℕ := 26

/-- `config['macd']['signal_period']`. -/
def macdSignalCfg : ℕ := 9

/-! ## The five indicator functions of `utils.py`

Each takes its parameters explicitly; the source's `None -> config default`
resolution is performed by the caller (see `calculate_technical_indicators`
below, which passes the config values). -/

/-- `utils.calculate_ma`: moving averages of `close` for each period, volume
moving averages, and percent change.  Empty input is returned unchanged. -/
def calculate_ma (df : List Row) (periods : List ℕ) : List Row :=
  match df with
  | [] => df
  | _ :: _ =>
    let d1 := sortRows df
    let d2 := periods.foldl
      (fun d p => setColAll d (ColKey.ma p) ((rollingMean p (closes d)).map FV.num)) d1
    let d3 := volPeriodsCfg.foldl
      (fun d p => setColAll d (ColKey.volMa p) ((rollingMean p (vols d)).map FV.num)) d2
    setColAll d3 ColKey.pctChg
      ((pctChange (closes d3)).map (fun v => FV.mul v (FV.num 100)))

/-- The gain series of `calculate_rsi`: `delta.where(delta > 0, 0)` (the
comparison with `NaN` is false, so the first entry is `0`). -/
def rsiGain (delta : List FV) : List ℚ :=
  delta.map (fun d => match d with | FV.num a => if 0 < a then a else 0 | _ => 0)

/-- The loss series of `calculate_rsi`: `-delta.where(delta < 0, 0)`. -/
def rsiLoss (delta : List FV) : List ℚ :=
  delta.map (fun d => match d with | FV.num a => if a < 0 then -a else 0 | _ => 0)

/-- One RSI value from the rolling average gain and loss:
`rs = avg_gain / avg_loss`, `rsi = 100 - 100 / (1 + rs)` in float
arithmetic. -/
def rsiFromAvg (g l : ℚ) : FV :=
  FV.sub (FV.num 100)
    (FV.div (FV.num 100) (FV.add (FV.num 1) (FV.div (FV.num g) (FV.num l))))

/-- The `rsi{p}` column from the shared `delta = close.diff()` series. -/
def rsiCol (p : ℕ) (delta : List FV) : List FV :=
  List.zipWith rsiFromAvg (rollingMean p (rsiGain delta)) (rollingMean p (rsiLoss delta))

/-- `utils.calculate_rsi`. -/
def calculate_rsi (df : List Row) (periods : List ℕ) : List Row :=
  match df with
  | [] => df
  | _ :: _ =>
    let d1 := sortRows df
    let delta := diffFV (closes d1)
    periods.foldl (fun d p => setColAll d (ColKey.rsi p) (rsiCol p delta)) d1

/-- The RSV series of `calculate_kdj`:
`(close - low_n) / (high_n - low_n) * 100`, then `fillna(50)` (which
replaces exactly the `NaN` produced by `0/0` in a flat window). -/
def rsvList (period : ℕ) (hs ls cs : List ℚ) : List FV :=
  (List.range cs.length).map (fun i =>
    let hn := listMax (winAt period hs i)
    let ln := listMin (winAt period ls i)
    let v := FV.mul (FV.div (FV.num (cs.getD i 0 - ln)) (FV.num (hn - ln))) (FV.num 100)
    match v with
    | FV.nan => FV.num 50
    | w => w)

/-- `utils.calculate_kdj`. -/
def calculate_kdj (df : List Row) (period kp dp : ℕ) : List Row :=
  match df with
  | [] => df
  | _ :: _ =>
    let d1 := sortRows df
    let rsv := rsvList period (highs d1) (lows d1) (closes d1)
    let kv := ewm (1 / (kp : ℚ)) rsv
    let dv := ewm (1 / (dp : ℚ)) kv
    let jv := List.zipWith
      (fun a b => FV.sub (FV.mul (FV.num 3) a) (FV.mul (FV.num 2) b)) kv dv
    setColAll (setColAll (setColAll d1 ColKey.kCol kv) ColKey.dCol dv) ColKey.jCol jv

/-- `utils.calculate_bollinger_bands`. -/
def calculate_bollinger_bands (df : List Row) (period : ℕ) (std_dev : ℚ) : List Row :=
  match df with
  | [] => df
  | _ :: _ =>
    let d1 := sortRows df
    let mid := (rollingMean period (closes d1)).map FV.num
    let d2 := setColAll d1 ColKey.bollMid mid
    let std := rollingStd period (closes d2)
    let upper := List.zipWith (fun m s => FV.add m (FV.mul s (FV.num std_dev))) mid std
    let lower := List.zipWith (fun m s => FV.sub m (FV.mul s (FV.num std_dev))) mid std
    setColAll (setColAll d2 ColKey.bollUpper upper) ColKey.bollLower lower

/-- The span-based EWMA smoothing factor `alpha = 2 / (span + 1)` of
`Series.ewm(span=..., adjust=False)`. -/
def spanAlpha (span : ℕ) : ℚ := 2 / ((span : ℚ) + 1)

/-- `utils.calculate_macd`. -/
def calculate_macd (df : List Row) (fast slow signal : ℕ) : List Row :=
  match df with
  | [] => df
  | _ :: _ =>
    let d1 := sortRows df
    let cs := (closes d1).map FV.num
    let emaFast := ewm (spanAlpha fast) cs
    let emaSlow := ewm (spanAlpha slow) cs
    let dif := List.zipWith FV.sub emaFast emaSlow
    let dea := ewm (spanAlpha signal) dif
    let macd := List.zipWith (fun a b => FV.mul (FV.sub a b) (FV.num 2)) dif dea
    setColAll (setColAll (setColAll d1 ColKey.macdDif dif) ColKey.macdDea dea)
      ColKey.macdMacd macd

/-- Modelled from the spec: `computeIndicators` (`calculate_technical_indicators`)
is imported by `kline_data.py` from `utils` but its definition is missing
from the sources; per spec §6 it applies every indicator family with the
documented config defaults, so it is modelled as the composition of the
five functions above with the `TECHNICAL_INDICATORS_CONFIG` values. -/
def calculate_technical_indicators (df : List Row) : List Row :=
  calculate_macd
    (calculate_bollinger_bands
      (calculate_kdj
        (calculate_rsi (calculate_ma df maPeriodsCfg) rsiPeriodsCfg)
        kdjPeriodCfg kdjKCfg kdjDCfg)
      bollPeriodCfg bollStdCfg)
    macdFastCfg macdSlowCfg macdSignalCfg

/-! ## RateLimiter (`utils.RateLimiter`) -/

/-- The state of a `RateLimiter`: the constructor arguments and the list of
recorded grant timestamps (`self.requests`). -/
structure RLState where
  max_requests : ℤ
  time_window : ℚ
  requests : List ℚ
deriving DecidableEq, Repr

/-- `RateLimiter.__init__`: stores the two parameters and an empty ledger.
The body contains no validation and no `raise`, so it always succeeds; the
`Except` result type records that construction is the place where a
rejection would surface. -/
def rateLimiterInit (m : ℤ) (w : ℚ) : Except String RLState :=
  Except.ok ⟨m, w, []⟩

/-- The pruning step of `acquire`: keep timestamps with `now - t < window`
(strict, as in the source). -/
def prune (w now : ℚ) (reqs : List ℚ) : List ℚ :=
  reqs.filter (fun t => decide (now - t < w))

/-- Outcome of one atomic round of `acquire` (the code between two
suspension points): a grant, a suspension of the given duration followed by
a retry, or the `IndexError` that `self.requests[0]` raises on an empty
ledger (reachable when `max_requests ≤ 0`). -/
inductive AcqResult where
  | granted
  | sleeps (dur : ℚ)
  | indexError
deriving DecidableEq, Repr

/-- One atomic round of `RateLimiter.acquire` at wall-clock time `now`:
prune, then either record `now` and grant, or sleep
`time_window - (now - requests[0])` and retry (the source falls through and
grants when that quantity is not positive). -/
def acquireStep (s : RLState) (now : ℚ) : AcqResult × RLState :=
  let pruned := prune s.time_window now s.requests
  if s.max_requests ≤ (pruned.length : ℤ) then
    match pruned with
    | [] => (AcqResult.indexError, { s with requests := pruned })
    | t0 :: _ =>
      let sleepTime := s.time_window - (now - t0)
      if 0 < sleepTime then (AcqResult.sleeps sleepTime, { s with requests := pruned })
      else (AcqResult.granted, { s with requests := pruned ++ [now] })
  else (AcqResult.granted, { s with requests := pruned ++ [now] })

/-- An execution of the limiter: a sequence of atomic `acquire` rounds at
the given (nondecreasing) wall-clock times, arbitrarily interleaved among
any number of concurrent callers.  Returns the recorded grant timestamps,
in order, and the final state. -/
def runAcquires (s : RLState) : List ℚ → List ℚ × RLState
  | [] => ([], s)
  | t :: ts =>
    let step := acquireStep s t
    let rest := runAcquires step.2 ts
    (match step.1 with
     | AcqResult.granted => t :: rest.1
     | _ => rest.1, rest.2)

/-! ## Composite requests (`data_manager.DataManager.get_stock_comprehensive_data`)

The four sub-fetches are upstream calls; an execution is described by an
oracle `fetch : String → Except String α` giving, per task label, either the
fetched value or the exception that task raised.  `asyncio.gather(*tasks,
return_exceptions=True)` delivers exactly these outcomes without letting an
exception escape, and the result dict maps each submitted label to its
value, or to `None` for an exception (the error is logged). -/

/-- A value in the composite result dict: one of the four metadata strings,
a fetched value, or `None` recorded for a failed sub-request. -/
inductive CompValue (α : Type) where
  | text (s : String)
  | data (a : α)
  | null
deriving DecidableEq

/-- The four `include_*` feature flags of `get_stock_comprehensive_data`. -/
structure CompFlags where
  include_kline : Bool
  include_financial : Bool
  include_market : Bool
  include_news : Bool
deriving DecidableEq, Repr

/-- `task_names`: the labels of the sub-requests actually submitted, in the
order the source appends them; a disabled flag contributes nothing. -/
def taskNames (f : CompFlags) : List String :=
  (if f.include_kline then ["kline"] else []) ++
  (if f.include_financial then ["financial"] else []) ++
  (if f.include_market then ["money_flow"] else []) ++
  (if f.include_news then ["news"] else [])

/-- `DataManager.get_stock_comprehensive_data`, with the result dict as an
association list: the four metadata entries, then one entry per submitted
task — the fetched value on success, `None` on exception. -/
def get_stock_comprehensive_data (α : Type) (ts_code start_date end_date update_time : String)
    (f : CompFlags) (fetch : String → Except String α) : List (String × CompValue α) :=
  [("ts_code", CompValue.text ts_code), ("start_date", CompValue.text start_date),
   ("end_date", CompValue.text end_date), ("update_time", CompValue.text update_time)] ++
  (taskNames f).map (fun n =>
    (n, match fetch n with
        | Except.ok a => CompValue.data a
        | Except.error _ => CompValue.null))

/-! ## Heap model for the mutation claim

Python DataFrames are heap objects passed by reference.  To state that the
indicator functions never mutate their argument, each function body is
re-traced over an explicit heap: a list of frame objects, references being
indices.  `df.copy()` and `df.sort_values(...)` allocate fresh objects;
`df[col] = ...` writes in place through a reference.  Each
`calculate_*_heap` below performs, in source order, exactly the allocations
and in-place writes of the corresponding Python body and returns the heap
together with the reference to the returned frame. -/

/-- A heap of DataFrame objects; a reference is an index. -/
abbrev Heap : Type := List (List Row)

/-- Dereference (the empty frame for a dangling reference, never reached). -/
def hread (h : Heap) (r : ℕ) : List Row := List.getD h r []

/-- In-place mutation of the object behind a reference. -/
def hwrite (h : Heap) (r : ℕ) (d : List Row) : Heap := List.set h r d

/-- Allocation: the new object goes at index `List.length h`. -/
def halloc (h : Heap) (d : List Row) : Heap := h ++ [d]

/-- `calculate_ma` over the heap. -/
def calculate_ma_heap (h : Heap) (r : ℕ) (periods : List ℕ) : Heap × ℕ :=
  match hread h r with
  | [] => (h, r)
  | _ :: _ =>
    let h1 := halloc h (hread h r)
    let r1 := List.length h
    let h2 := halloc h1 (sortRows (hread h1 r1))
    let r2 := List.length h1
    let h3 := periods.foldl (fun hh p =>
      hwrite hh r2 (setColAll (hread hh r2) (ColKey.ma p)
        ((rollingMean p (closes (hread hh r2))).map FV.num))) h2
    let h4 := volPeriodsCfg.foldl (fun hh p =>
      hwrite hh r2 (setColAll (hread hh r2) (ColKey.volMa p)
        ((rollingMean p (vols (hread hh r2))).map FV.num))) h3
    let h5 := hwrite h4 r2 (setColAll (hread h4 r2) ColKey.pctChg
      ((pctChange (closes (hread h4 r2))).map (fun v => FV.mul v (FV.num 100))))
    (h5, r2)

/-- `calculate_rsi` over the heap. -/
def calculate_rsi_heap (h : Heap) (r : ℕ) (periods : List ℕ) : Heap × ℕ :=
  match hread h r with
  | [] => (h, r)
  | _ :: _ =>
    let h1 := halloc h (hread h r)
    let r1 := List.length h
    let h2 := halloc h1 (sortRows (hread h1 r1))
    let r2 := List.length h1
    let h3 := periods.foldl (fun hh p =>
      hwrite hh r2 (setColAll (hread hh r2) (ColKey.rsi p)
        (rsiCol p (diffFV (closes (hread hh r2)))))) h2
    (h3, r2)

/-- `calculate_kdj` over the heap. -/
def calculate_kdj_heap (h : Heap) (r : ℕ) (period kp dp : ℕ) : Heap × ℕ :=
  match hread h r with
  | [] => (h, r)
  | _ :: _ =>
    let h1 := halloc h (hread h r)
    let r1 := List.length h
    let h2 := halloc h1 (sortRows (hread h1 r1))
    let r2 := List.length h1
    let rsv := rsvList period (highs (hread h2 r2)) (lows (hread h2 r2)) (closes (hread h2 r2))
    let kv := ewm (1 / (kp : ℚ)) rsv
    let dv := ewm (1 / (dp : ℚ)) kv
    let jv := List.zipWith
      (fun a b => FV.sub (FV.mul (FV.num 3) a) (FV.mul (FV.num 2) b)) kv dv
    let h3 := hwrite h2 r2 (setColAll (hread h2 r2) ColKey.kCol kv)
    let h4 := hwrite h3 r2 (setColAll (hread h3 r2) ColKey.dCol dv)
    let h5 := hwrite h4 r2 (setColAll (hread h4 r2) ColKey.jCol jv)
    (h5, r2)

/-- `calculate_bollinger_bands` over the heap. -/
def calculate_bollinger_bands_heap (h : Heap) (r : ℕ) (period : ℕ) (std_dev : ℚ) : Heap × ℕ :=
  match hread h r with
  | [] => (h, r)
  | _ :: _ =>
    let h1 := halloc h (hread h r)
    let r1 := List.length h
    let h2 := halloc h1 (sortRows (hread h1 r1))
    let r2 := List.length h1
    let mid := (rollingMean period (closes (hread h2 r2))).map FV.num
    let h3 := hwrite h2 r2 (setColAll (hread h2 r2) ColKey.bollMid mid)
    let std := rollingStd period (closes (hread h3 r2))
    let upper := List.zipWith (fun m s => FV.add m (FV.mul s (FV.num std_dev))) mid std
    let lower := List.zipWith (fun m s => FV.sub m (FV.mul s (FV.num std_dev))) mid std
    let h4 := hwrite h3 r2 (setColAll (hread h3 r2) ColKey.bollUpper upper)
    let h5 := hwrite h4 r2 (setColAll (hread h4 r2) ColKey.bollLower lower)
    (h5, r2)

/-- `calculate_macd` over the heap. -/
def calculate_macd_heap (h : Heap) (r : ℕ) (fast slow signal : ℕ) : Heap × ℕ :=
  match hread h r with
  | [] => (h, r)
  | _ :: _ =>
    let h1 := halloc h (hread h r)
    let r1 := List.length h
    let h2 := halloc h1 (sortRows (hread h1 r1))
    let r2 := List.length h1
    let cs := (closes (hread h2 r2)).map FV.num
    let emaFast := ewm (spanAlpha fast) cs
    let emaSlow := ewm (spanAlpha slow) cs
    let dif := List.zipWith FV.sub emaFast emaSlow
    let dea := ewm (spanAlpha signal) dif
    let macd := List.zipWith (fun a b => FV.mul (FV.sub a b) (FV.num 2)) dif dea
    let h3 := hwrite h2 r2 (setColAll (hread h2 r2) ColKey.macdDif dif)
    let h4 := hwrite h3 r2 (setColAll (hread h3 r2) ColKey.macdDea dea)
    let h5 := hwrite h4 r2 (setColAll (hread h4 r2) ColKey.macdMacd macd)
    (h5, r2)

/-! ## Basic lemmas about the column store -/

theorem lookupK_setK_self (k : ColKey) (v : FV) (e : List (ColKey × FV)) :
    lookupK k (setK k v e) = some v := by
  induction e with
  | nil => simp [setK, lookupK]
  | cons kv rest ih =>
    obtain ⟨k2, v2⟩ := kv
    by_cases h : k2 = k
    · simp [setK, h, lookupK]
    · simp [setK, h, lookupK, ih]

theorem lookupK_setK_ne (k k2 : ColKey) (v : FV) (e : List (ColKey × FV)) (h : k2 ≠ k) :
    lookupK k (setK k2 v e) = lookupK k e := by
  induction e with
  | nil => simp [setK, lookupK, h]
  | cons kv rest ih =>
    obtain ⟨k3, v3⟩ := kv
    simp only [setK]
    by_cases h3 : k3 = k2
    · subst h3
      simp [lookupK, h, Ne.symm h]
    · simp only [if_neg h3, lookupK]
      by_cases h4 : k3 = k
      · simp [h4]
      · simp [h4, ih]

theorem setK_eq_of_lookupK (k : ColKey) (v : FV) (e : List (ColKey × FV))
    (h : lookupK k e = some v) : setK k v e = e := by
  induction e with
  | nil => simp [lookupK] at h
  | cons kv rest ih =>
    obtain ⟨k2, v2⟩ := kv
    by_cases h2 : k2 = k
    · subst h2
      simp [lookupK] at h
      simp [setK, h]
    · simp [lookupK, h2] at h
      simp [setK, h2, ih h]

theorem length_setColAll (df : List Row) (k : ColKey) (vals : List FV)
    (hlen : df.length ≤ vals.length) : (setColAll df k vals).length = df.length := by
  simp [setColAll]
  omega

theorem map_setColAll {β : Type} (f : Row → β)
    (hf : ∀ (r : Row) (e : List (ColKey × FV)), f { r with extra := e } = f r)
    (df : List Row) (k : ColKey) (vals : List FV) (hlen : df.length ≤ vals.length) :
    (setColAll df k vals).map f = df.map f := by
  induction df generalizing vals with
  | nil => simp [setColAll]
  | cons r rest ih =>
    cases vals with
    | nil => simp at hlen
    | cons v vs =>
      simp only [List.length_cons] at hlen
      simp only [setColAll, List.zipWith_cons_cons, List.map_cons]
      rw [hf]
      exact congrArg (List.cons (f r)) (ih vs (by omega))

theorem closes_setColAll (df : List Row) (k : ColKey) (vals : List FV)
    (hlen : df.length ≤ vals.length) : closes (setColAll df k vals) = closes df :=
  map_setColAll Row.close (fun _ _ => rfl) df k vals hlen

theorem highs_setColAll (df : List Row) (k : ColKey) (vals : List FV)
    (hlen : df.length ≤ vals.length) : highs (setColAll df k vals) = highs df :=
  map_setColAll Row.high (fun _ _ => rfl) df k vals hlen

theorem lows_setColAll (df : List Row) (k : ColKey) (vals : List FV)
    (hlen : df.length ≤ vals.length) : lows (setColAll df k vals) = lows df :=
  map_setColAll Row.low (fun _ _ => rfl) df k vals hlen

theorem vols_setColAll (df : List Row) (k : ColKey) (vals : List FV)
    (hlen : df.length ≤ vals.length) : vols (setColAll df k vals) = vols df :=
  map_setColAll Row.vol (fun _ _ => rfl) df k vals hlen

theorem dates_setColAll (df : List Row) (k : ColKey) (vals : List FV)
    (hlen : df.length ≤ vals.length) : dates (setColAll df k vals) = dates df :=
  map_setColAll Row.trade_date (fun _ _ => rfl) df k vals hlen

theorem colVal_setColAll_self (df : List Row) (k : ColKey) (vals : List FV) (i : ℕ)
    (hd : i < df.length) (hv : i < vals.length) :
    colVal (setColAll df k vals) k i = some (vals[i]) := by
  unfold colVal setColAll
  rw [List.getElem?_eq_getElem (by rw [List.length_zipWith]; omega)]
  rw [List.getElem_zipWith]
  simp [lookupK_setK_self]

theorem colVal_setColAll_ne (df : List Row) (k k2 : ColKey) (vals : List FV) (i : ℕ)
    (hk : k2 ≠ k) (hlen : df.length ≤ vals.length) :
    colVal (setColAll df k2 vals) k i = colVal df k i := by
  unfold colVal setColAll
  by_cases hi : i < df.length
  · rw [List.getElem?_eq_getElem (by rw [List.length_zipWith]; omega),
      List.getElem?_eq_getElem hi, List.getElem_zipWith]
    simp [lookupK_setK_ne _ _ _ _ hk]
  · rw [List.getElem?_eq_none (by rw [List.length_zipWith]; omega),
      List.getElem?_eq_none (by omega)]

/-! ## Lemmas about `foldl` over column writes -/

theorem length_foldl_setColAll {ι : Type} (Q : List ι) (kf : ι → ColKey)
    (vf : List Row → ι → List FV) (hlen : ∀ d q, d.length ≤ (vf d q).length)
    (d0 : List Row) :
    (Q.foldl (fun d q => setColAll d (kf q) (vf d q)) d0).length = d0.length := by
  induction Q generalizing d0 with
  | nil => rfl
  | cons q Q ih =>
    simp only [List.foldl_cons]
    rw [ih, length_setColAll _ _ _ (hlen d0 q)]

theorem colVal_foldl_setColAll_ne {ι : Type} (Q : List ι) (kf : ι → ColKey)
    (vf : List Row → ι → List FV) (target : ColKey)
    (hne : ∀ q ∈ Q, kf q ≠ target)
    (hlen : ∀ d q, d.length ≤ (vf d q).length) (d0 : List Row) (i : ℕ) :
    colVal (Q.foldl (fun d q => setColAll d (kf q) (vf d q)) d0) target i
      = colVal d0 target i := by
  induction Q generalizing d0 with
  | nil => rfl
  | cons q Q ih =>
    simp only [List.foldl_cons]
    rw [ih (fun x hx => hne x (List.mem_cons_of_mem q hx)),
      colVal_setColAll_ne _ _ _ _ _ (hne q (List.mem_cons_self q Q)) (hlen d0 q)]

theorem vf_foldl_stable {ι : Type} (Q : List ι) (kf : ι → ColKey)
    (vf : List Row → ι → List FV) (hlen : ∀ d q, d.length ≤ (vf d q).length)
    (hstable : ∀ d k vals q, d.length ≤ vals.length → vf (setColAll d k vals) q = vf d q)
    (d0 : List Row) (q0 : ι) :
    vf (Q.foldl (fun d q => setColAll d (kf q) (vf d q)) d0) q0 = vf d0 q0 := by
  induction Q generalizing d0 with
  | nil => rfl
  | cons q Q ih =>
    simp only [List.foldl_cons]
    rw [ih, hstable _ _ _ _ (hlen d0 q)]

theorem colVal_foldl_setColAll_last {ι : Type} (Q1 Q2 : List ι) (q0 : ι) (kf : ι → ColKey)
    (vf : List Row → ι → List FV)
    (hne : ∀ q ∈ Q2, kf q ≠ kf q0)
    (hlen : ∀ d q, d.length ≤ (vf d q).length)
    (hstable : ∀ d k vals q, d.length ≤ vals.length → vf (setColAll d k vals) q = vf d q)
    (d0 : List Row) (i : ℕ) (hi : i < d0.length) :
    colVal ((Q1 ++ q0 :: Q2).foldl (fun d q => setColAll d (kf q) (vf d q)) d0) (kf q0) i
      = (vf d0 q0)[i]? := by
  rw [List.foldl_append, List.foldl_cons,
    colVal_foldl_setColAll_ne Q2 kf vf (kf q0) hne hlen,
    vf_foldl_stable Q1 kf vf hlen hstable]
  have h1 : (Q1.foldl (fun d q => setColAll d (kf q) (vf d q)) d0).length = d0.length :=
    length_foldl_setColAll Q1 kf vf hlen d0
  have h2 := hlen d0 q0
  rw [colVal_setColAll_self _ _ _ _ (by omega) (by omega),
    List.getElem?_eq_getElem (by omega)]

theorem length_foldl_setColAll_const {ι : Type} (Q : List ι) (kf : ι → ColKey)
    (vf : ι → List FV) (d0 : List Row) (hlen : ∀ q, d0.length ≤ (vf q).length) :
    (Q.foldl (fun d q => setColAll d (kf q) (vf q)) d0).length = d0.length := by
  induction Q generalizing d0 with
  | nil => rfl
  | cons q Q ih =>
    simp only [List.foldl_cons]
    have h1 : (setColAll d0 (kf q) (vf q)).length = d0.length :=
      length_setColAll _ _ _ (hlen q)
    rw [ih _ (fun q2 => by rw [h1]; exact hlen q2), h1]

theorem colVal_foldl_setColAll_ne_const {ι : Type} (Q : List ι) (kf : ι → ColKey)
    (vf : ι → List FV) (target : ColKey) (hne : ∀ q ∈ Q, kf q ≠ target)
    (d0 : List Row) (hlen : ∀ q, d0.length ≤ (vf q).length) (i : ℕ) :
    colVal (Q.foldl (fun d q => setColAll d (kf q) (vf q)) d0) target i
      = colVal d0 target i := by
  induction Q generalizing d0 with
  | nil => rfl
  | cons q Q ih =>
    simp only [List.foldl_cons]
    have h1 : (setColAll d0 (kf q) (vf q)).length = d0.length :=
      length_setColAll _ _ _ (hlen q)
    rw [ih (fun x hx => hne x (List.mem_cons_of_mem q hx)) _ (fun q2 => by rw [h1]; exact hlen q2),
      colVal_setColAll_ne _ _ _ _ _ (hne q (List.mem_cons_self q Q)) (hlen q)]

theorem colVal_foldl_setColAll_last_const {ι : Type} (Q1 Q2 : List ι) (q0 : ι)
    (kf : ι → ColKey) (vf : ι → List FV) (hne : ∀ q ∈ Q2, kf q ≠ kf q0)
    (d0 : List Row) (hlen : ∀ q, d0.length ≤ (vf q).length) (i : ℕ) (hi : i < d0.length) :
    colVal ((Q1 ++ q0 :: Q2).foldl (fun d q => setColAll d (kf q) (vf q)) d0) (kf q0) i
      = (vf q0)[i]? := by
  rw [List.foldl_append, List.foldl_cons]
  have hQ1 : (Q1.foldl (fun d q => setColAll d (kf q) (vf q)) d0).length = d0.length :=
    length_foldl_setColAll_const Q1 kf vf d0 hlen
  have hset : (setColAll (Q1.foldl (fun d q => setColAll d (kf q) (vf q)) d0) (kf q0) (vf q0)).length
      = d0.length := by
    rw [length_setColAll _ _ _ (by rw [hQ1]; exact hlen q0), hQ1]
  rw [colVal_foldl_setColAll_ne_const Q2 kf vf (kf q0) hne _
    (fun q => by rw [hset]; exact hlen q) i]
  rw [colVal_setColAll_self _ _ _ _ (by omega) (by have := hlen q0; omega),
    List.getElem?_eq_getElem (by have := hlen q0; omega)]

theorem exists_last_split {α : Type} [DecidableEq α] {a : α} {l : List α} (h : a ∈ l) :
    ∃ l1 l2, l = l1 ++ a :: l2 ∧ a ∉ l2 := by
  induction l with
  | nil => cases h
  | cons x xs ih =>
    by_cases hx : a ∈ xs
    · obtain ⟨l1, l2, rfl, hni⟩ := ih hx
      exact ⟨x :: l1, l2, rfl, hni⟩
    · have hax : a = x := by
        rcases List.mem_cons.mp h with h1 | h1
        · exact h1
        · exact absurd h1 hx
      exact ⟨[], xs, by rw [hax]; rfl, hx⟩

/-! ## Lengths of the derived series -/

theorem length_rollingMean (p : ℕ) (xs : List ℚ) : (rollingMean p xs).length = xs.length := by
  simp [rollingMean]

theorem length_rollingStd (p : ℕ) (xs : List ℚ) : (rollingStd p xs).length = xs.length := by
  simp [rollingStd]

theorem length_diffAux (prev : ℚ) (xs : List ℚ) : (diffAux prev xs).length = xs.length := by
  induction xs generalizing prev with
  | nil => rfl
  | cons x rest ih => simp [diffAux, ih]

theorem length_diffFV (xs : List ℚ) : (diffFV xs).length = xs.length := by
  cases xs with
  | nil => rfl
  | cons x rest => simp [diffFV, length_diffAux]

theorem length_pctChangeAux (prev : ℚ) (xs : List ℚ) :
    (pctChangeAux prev xs).length = xs.length := by
  induction xs generalizing prev with
  | nil => rfl
  | cons x rest ih => simp [pctChangeAux, ih]

theorem length_pctChange (xs : List ℚ) : (pctChange xs).length = xs.length := by
  cases xs with
  | nil => rfl
  | cons x rest => simp [pctChange, length_pctChangeAux]

theorem length_ewmAux (a : ℚ) (prev : FV) (xs : List FV) :
    (ewmAux a prev xs).length = xs.length := by
  induction xs generalizing prev with
  | nil => rfl
  | cons x rest ih => simp [ewmAux, ih]

theorem length_ewm (a : ℚ) (xs : List FV) : (ewm a xs).length = xs.length := by
  cases xs with
  | nil => rfl
  | cons x rest => simp [ewm, length_ewmAux]

theorem length_rsiGain (delta : List FV) : (rsiGain delta).length = delta.length := by
  simp [rsiGain]

theorem length_rsiLoss (delta : List FV) : (rsiLoss delta).length = delta.length := by
  simp [rsiLoss]

theorem length_rsiCol (p : ℕ) (delta : List FV) : (rsiCol p delta).length = delta.length := by
  simp [rsiCol, length_rollingMean, length_rsiGain, length_rsiLoss]

theorem length_rsvList (period : ℕ) (hs ls cs : List ℚ) :
    (rsvList period hs ls cs).length = cs.length := by
  simp [rsvList]

theorem length_closes (df : List Row) : (closes df).length = df.length := by simp [closes]

theorem length_highs (df : List Row) : (highs df).length = df.length := by simp [highs]

theorem length_lows (df : List Row) : (lows df).length = df.length := by simp [lows]

theorem length_vols (df : List Row) : (vols df).length = df.length := by simp [vols]

theorem length_dates (df : List Row) : (dates df).length = df.length := by simp [dates]

theorem length_sortRows (df : List Row) : (sortRows df).length = df.length := by
  simp [sortRows]

theorem getElem_rollingMean (p : ℕ) (xs : List ℚ) (i : ℕ) (_hi : i < xs.length)
    (hh : i < (rollingMean p xs).length) :
    (rollingMean p xs)[i] = qmean (winAt p xs i) := by
  simp [rollingMean]

theorem getElem_rollingStd (p : ℕ) (xs : List ℚ) (i : ℕ) (_hi : i < xs.length)
    (hh : i < (rollingStd p xs).length) :
    (rollingStd p xs)[i]
      = (if (winAt p xs i).length < 2 then FV.nan else FV.num (ratSqrt (sampleVar (winAt p xs i)))) := by
  simp [rollingStd]

/-! ## C4: RateLimiter construction with zero parameters -/

/-- C4 counterexample: the claim says a `RateLimiter` with `max_requests = 0`
or `time_window = 0` is rejected at construction; in the source
`__init__` performs no validation, so both constructions succeed and return
a limiter object. -/
theorem rateLimiterInit_zero_accepted :
    rateLimiterInit 0 60 = Except.ok ⟨0, 60, []⟩ ∧
    rateLimiterInit 200 0 = Except.ok ⟨200, 0, []⟩ :=
  ⟨rfl, rfl⟩

/-- C4 amended: construction never validates and always succeeds, storing
the given parameters verbatim; the misbehaviour surfaces only at run time —
with `max_requests = 0` the very first `acquire` round raises `IndexError`
(`self.requests[0]` on an empty ledger), and with `time_window = 0` every
round grants immediately, so the limiter never limits. -/
theorem rateLimiterInit_no_validation (m : ℤ) (w now : ℚ) :
    rateLimiterInit m w = Except.ok ⟨m, w, []⟩ ∧
    (acquireStep ⟨0, w, []⟩ now).1 = AcqResult.indexError ∧
    (∀ s : RLState, s.time_window = 0 → (∀ t ∈ s.requests, t ≤ now) →
      0 < s.max_requests → (acquireStep s now).1 = AcqResult.granted) := by
  refine ⟨rfl, by simp [acquireStep, prune], ?_⟩
  intro s hw hreq hm
  have hpr : prune s.time_window now s.requests = [] := by
    rw [hw]
    simp [prune]
    exact hreq
  simp only [acquireStep, hpr]
  split
  · rename_i h
    exfalso
    simp only [List.length_nil, Nat.cast_zero] at h
    omega
  · rfl

/-- C4 amended witness: the no-validation behaviour at concrete inputs —
construction with `max_requests = 0` succeeds, its first `acquire` round
raises `IndexError`, and a `time_window = 0` limiter with a stale ledger
grants immediately. -/
theorem rateLimiterInit_no_validation_witness :
    rateLimiterInit 0 60 = Except.ok ⟨0, 60, []⟩ ∧
    (acquireStep ⟨0, 60, []⟩ 5).1 = AcqResult.indexError ∧
    (acquireStep ⟨3, 0, [1, 2]⟩ 5).1 = AcqResult.granted := by
  obtain ⟨h1, h2, h3⟩ := rateLimiterInit_no_validation 0 60 5
  exact ⟨h1, h2, h3 ⟨3, 0, [1, 2]⟩ rfl (by decide) (by decide)⟩

/-! ## C1: the sliding-window guarantee of `RateLimiter.acquire` -/

/-- Grant certificates: at the position of each recorded grant, strictly
fewer than `N` of the previously recorded grants lie in the trailing
open window of width `w` — exactly the condition `len(pruned) < max_requests`
under which `acquire` records a timestamp. -/
def grantCert (N : ℤ) (w : ℚ) (gs : List ℚ) : Prop :=
  ∀ i, (h : i < gs.length) →
    (((gs.take i).filter (fun x => decide (gs[i] - x < w))).length : ℤ) < N

theorem grantCert_nil (N : ℤ) (w : ℚ) : grantCert N w [] := by
  intro i h
  simp at h

theorem grantCert_restrict (N : ℤ) (w : ℚ) (gs : List ℚ) (t : ℚ)
    (h : grantCert N w (gs ++ [t])) : grantCert N w gs := by
  intro i hi
  have h2 := h i (by simp; omega)
  rwa [List.take_append_of_le_length (by omega), List.getElem_append_left hi] at h2

theorem grantCert_append (N : ℤ) (w : ℚ) (gs : List ℚ) (t : ℚ)
    (hG : grantCert N w gs)
    (ht : ((gs.filter (fun x => decide (t - x < w))).length : ℤ) < N) :
    grantCert N w (gs ++ [t]) := by
  intro i hi
  simp only [List.length_append, List.length_cons, List.length_nil] at hi
  by_cases hlt : i < gs.length
  · have h2 := hG i hlt
    rwa [List.take_append_of_le_length (by omega), List.getElem_append_left hlt]
  · have hieq : i = gs.length := by omega
    subst hieq
    rw [List.take_left, List.getElem_concat_length gs t gs.length rfl]
    exact ht

/-- Any positional suffix-free ("last in any window") counting argument:
certificates bound the number of grants in every half-open window
`(a, a + w]`. -/
theorem window_bound_of_grantCert (N : ℤ) (w : ℚ) (hN : 0 ≤ N) (gs : List ℚ) :
    grantCert N w gs → ∀ a : ℚ,
      (((gs.filter (fun t => decide (a < t ∧ t ≤ a + w))).length : ℤ) ≤ N) := by
  induction gs using List.reverseRecOn with
  | nil =>
    intro _ a
    simpa using hN
  | append_singleton init g ih =>
    intro hc a
    have hbinit := ih (grantCert_restrict N w init g hc) a
    rw [List.filter_append]
    by_cases hg : (a < g ∧ g ≤ a + w)
    · have hcert := hc init.length (by simp)
      rw [List.take_left, List.getElem_concat_length init g init.length rfl] at hcert
      have hsub : List.Sublist (init.filter (fun t => decide (a < t ∧ t ≤ a + w)))
          (init.filter (fun x => decide (g - x < w))) := by
        apply List.monotone_filter_right
        intro x hx
        simp only [decide_eq_true_eq] at hx ⊢
        obtain ⟨hax, hxw⟩ := hx
        have h2 := hg.2
        linarith
      have hlen := hsub.length_le
      have hgfilter : List.filter (fun t => decide (a < t ∧ t ≤ a + w)) [g] = [g] := by
        simp [hg.1, hg.2]
      rw [hgfilter]
      simp only [List.length_append, List.length_cons, List.length_nil]
      omega
    · have hgfilter : List.filter (fun t => decide (a < t ∧ t ≤ a + w)) [g] = [] := by
        simp only [List.filter_cons, List.filter_nil]
        rw [if_neg (by simpa using hg)]
      rw [hgfilter, List.append_nil]
      exact hbinit

theorem prune_prune (w tp t : ℚ) (G : List ℚ) (h : tp ≤ t) :
    prune w t (prune w tp G) = prune w t G := by
  unfold prune
  rw [List.filter_filter]
  apply List.filter_congr
  intro x _
  by_cases hx : t - x < w
  · have h2 : tp - x < w := by linarith
    simp [hx, h2]
  · simp [hx]

theorem prune_concat (w t : ℚ) (G : List ℚ) (hw : 0 < w) :
    prune w t (G ++ [t]) = prune w t G ++ [t] := by
  unfold prune
  rw [List.filter_append]
  congr 1
  simp [sub_self, hw]

theorem acquireStep_granted_of_lt (s : RLState) (now : ℚ)
    (h : ((prune s.time_window now s.requests).length : ℤ) < s.max_requests) :
    acquireStep s now =
      (AcqResult.granted, { s with requests := prune s.time_window now s.requests ++ [now] }) := by
  unfold acquireStep
  rw [if_neg (by omega)]

theorem acquireStep_sleeps (s : RLState) (now t0 : ℚ) (rest : List ℚ)
    (h : s.max_requests ≤ ((prune s.time_window now s.requests).length : ℤ))
    (hp : prune s.time_window now s.requests = t0 :: rest)
    (hs : 0 < s.time_window - (now - t0)) :
    acquireStep s now =
      (AcqResult.sleeps (s.time_window - (now - t0)),
       { s with requests := prune s.time_window now s.requests }) := by
  unfold acquireStep
  rw [if_pos h]
  rw [hp]
  simp [hs]

theorem acquireStep_indexError (s : RLState) (now : ℚ)
    (h : s.max_requests ≤ ((prune s.time_window now s.requests).length : ℤ))
    (hp : prune s.time_window now s.requests = []) :
    acquireStep s now = (AcqResult.indexError, { s with requests := [] }) := by
  unfold acquireStep
  rw [if_pos h, hp]

/-- The workhorse for C1: starting from a state whose ledger is the pruned
view of the grant history `G`, every further execution only records grants
that carry a certificate. -/
theorem runAcquires_grantCert (N : ℤ) (w : ℚ) (hw : 0 < w) :
    ∀ (ts G : List ℚ) (tp : ℚ),
      List.Sorted (· ≤ ·) ts → (∀ t ∈ ts, tp ≤ t) → (∀ g ∈ G, g ≤ tp) →
      grantCert N w G →
      grantCert N w (G ++ (runAcquires ⟨N, w, prune w tp G⟩ ts).1) := by
  intro ts
  induction ts with
  | nil =>
    intro G tp _ _ _ hG
    simpa [runAcquires] using hG
  | cons t ts ih =>
    intro G tp hsort hlb hub hG
    have htp : tp ≤ t := hlb t (List.mem_cons_self t ts)
    have hsort2 : List.Sorted (· ≤ ·) ts := (List.sorted_cons.mp hsort).2
    have hlb2 : ∀ x ∈ ts, t ≤ x := (List.sorted_cons.mp hsort).1
    have hpp : prune w t (prune w tp G) =
        prune w t G := prune_prune w tp t G htp
    have hstate : ∀ q : List ℚ, ({ max_requests := N, time_window := w, requests := q } : RLState).time_window = w := fun _ => rfl
    by_cases hfull : N ≤ ((prune w t G).length : ℤ)
    · -- over the limit: no grant is recorded in this round
      rcases hcase : prune w t G with _ | ⟨t0, rest0⟩
      · -- empty ledger: IndexError; the ledger stays empty
        have hstep := acquireStep_indexError ⟨N, w, prune w tp G⟩ t
          (by simpa [hpp, hcase] using hfull) (by simpa [hpp] using hcase)
        have hrec := ih G t hsort2 hlb2 (fun g hg => le_trans (hub g hg) htp) hG
        rw [show (runAcquires ⟨N, w, prune w tp G⟩ (t :: ts)).1
            = (runAcquires ⟨N, w, prune w t G⟩ ts).1 from by
          rw [runAcquires, hstep]
          simp [hcase]]
        exact hrec
      · -- nonempty ledger: within one round `sleep_time` is always positive,
        -- so the round sleeps and retries; the pruning persists
        have ht0 : t0 ∈ prune w t G := by rw [hcase]; exact List.mem_cons_self t0 rest0
        have ht0w : t - t0 < w := by
          have := List.of_mem_filter ht0
          simpa using this
        have hstep := acquireStep_sleeps ⟨N, w, prune w tp G⟩ t t0 rest0
          (by simpa [hpp] using hfull) (by simpa [hpp] using hcase) (by simp; linarith)
        have hrec := ih G t hsort2 hlb2 (fun g hg => le_trans (hub g hg) htp) hG
        rw [show (runAcquires ⟨N, w, prune w tp G⟩ (t :: ts)).1
            = (runAcquires ⟨N, w, prune w t G⟩ ts).1 from by
          rw [runAcquires, hstep]
          simp [hpp]]
        exact hrec
    · -- below the limit: the round records `t`
      push_neg at hfull
      have hstep := acquireStep_granted_of_lt ⟨N, w, prune w tp G⟩ t (by simpa [hpp] using hfull)
      have hGt : grantCert N w (G ++ [t]) := grantCert_append N w G t hG (by
        have : prune w t G = G.filter (fun x => decide (t - x < w)) := rfl
        rw [this] at hfull
        exact hfull)
      have hrec := ih (G ++ [t]) t hsort2 hlb2
        (fun g hg => by
          rcases List.mem_append.mp hg with hg1 | hg1
          · exact le_trans (hub g hg1) htp
          · have hgt : g = t := by simpa using hg1
            simp [hgt])
        hGt
      rw [show (runAcquires ⟨N, w, prune w tp G⟩ (t :: ts)).1
          = t :: (runAcquires ⟨N, w, prune w t (G ++ [t])⟩ ts).1 from by
        rw [runAcquires, hstep]
        simp [prune_concat w t G hw, hpp]]
      rw [show G ++ t :: (runAcquires ⟨N, w, prune w t (G ++ [t])⟩ ts).1
          = (G ++ [t]) ++ (runAcquires ⟨N, w, prune w t (G ++ [t])⟩ ts).1 from by
        rw [List.append_assoc]
        rfl]
      exact hrec

/-- C1 amended: for a `RateLimiter(max_requests = N, time_window = W)` and
every execution — any number of concurrent callers performing atomic
`acquire` rounds at nondecreasing wall-clock times — every *half-open*
rolling window `(a, a + W]` contains at most `N` recorded grant
timestamps.  (The claim's closed reading `[a, a + W]` fails at the window
boundary, see the counterexample: the source prunes with the strict
comparison `now - t < W`, so a slot freed at exactly `W` seconds allows a
grant at both endpoints of a closed window.) -/
theorem rateLimiter_window_bound (N : ℤ) (w a : ℚ) (ts : List ℚ)
    (hN : 0 ≤ N) (hsort : List.Sorted (· ≤ ·) ts) :
    (((runAcquires ⟨N, w, []⟩ ts).1.filter
        (fun t => decide (a < t ∧ t ≤ a + w))).length : ℤ) ≤ N := by
  by_cases hw : 0 < w
  · cases ts with
    | nil => simpa [runAcquires] using hN
    | cons t ts =>
      have hlb : ∀ x ∈ t :: ts, t ≤ x := by
        intro x hx
        rcases List.mem_cons.mp hx with rfl | hx2
        · exact le_refl x
        · exact (List.sorted_cons.mp hsort).1 x hx2
      have hcert := runAcquires_grantCert N w hw (t :: ts) [] t hsort hlb
        (fun g hg => absurd hg (List.not_mem_nil g)) (grantCert_nil N w)
      have hcert2 : grantCert N w ((runAcquires ⟨N, w, []⟩ (t :: ts)).1) := by
        have hpr : prune w t ([] : List ℚ) = [] := rfl
        rw [hpr] at hcert
        simpa using hcert
      exact window_bound_of_grantCert N w hN _ hcert2 a
  · have hempty : ((runAcquires ⟨N, w, []⟩ ts).1.filter
        (fun t => decide (a < t ∧ t ≤ a + w))) = [] := by
      rw [List.filter_eq_nil_iff]
      intro t _
      simp only [decide_eq_true_eq, not_and, not_le]
      intro hat
      linarith
    rw [hempty]
    simpa using hN

/-- C1 witness for the amended bound: the two-caller execution with
attempt rounds at times `0, 0, 1` under `N = 1`, `W = 1` satisfies the
half-open window bound at `a = -1/2`. -/
theorem rateLimiter_window_bound_witness :
    (((runAcquires ⟨1, 1, []⟩ [0, 0, 1]).1.filter
        (fun t => decide ((-1/2 : ℚ) < t ∧ t ≤ -1/2 + 1))).length : ℤ) ≤ 1 :=
  rateLimiter_window_bound 1 1 (-1/2) [0, 0, 1] (by decide) (by decide)

/-- C1 counterexample to the claim as stated (with the spec's glossary
reading of a sliding window as the *closed* interval `[now - W, now]`):
with `max_requests = 1`, `time_window = 1` and two concurrent callers —
both start an `acquire` round at time `0`; the first is granted, the second
finds the window full, sleeps `1` second and retries at time `1`, where the
strict prune `now - t < W` has already dropped the first grant — the
recorded grants are `0` and `1`, and the closed 1-second window `[0, 1]`
contains `2 > 1` grant timestamps. -/
theorem rateLimiter_closed_window_counterexample :
    List.Sorted (· ≤ ·) ([0, 0, 1] : List ℚ) ∧
    (runAcquires ⟨1, 1, []⟩ [0, 0, 1]).1 = [0, 1] ∧
    ((runAcquires ⟨1, 1, []⟩ [0, 0, 1]).1.filter
        (fun t => decide ((0 : ℚ) ≤ t ∧ t ≤ 0 + 1))).length = 2 ∧
    ¬ ((2 : ℤ) ≤ 1) :=
  ⟨by decide,
   by norm_num [runAcquires, acquireStep, prune, List.filter],
   by norm_num [runAcquires, acquireStep, prune, List.filter],
   by decide⟩

/-! ## C2 and C8: the composite request -/

theorem lookup_append_of_none {α β : Type} [BEq α] (l1 l2 : List (α × β)) (k : α)
    (h : l1.lookup k = none) : (l1 ++ l2).lookup k = l2.lookup k := by
  induction l1 with
  | nil => simp
  | cons kv rest ih =>
    obtain ⟨k1, v1⟩ := kv
    simp only [List.cons_append, List.lookup]
    simp only [List.lookup] at h
    cases hk : k == k1
    · rw [hk] at h
      exact ih h
    · rw [hk] at h
      simp at h

theorem lookup_map_entry {α : Type} (L : List String) (g : String → CompValue α)
    (n : String) (hn : n ∈ L) :
    (L.map (fun m => (m, g m))).lookup n = some (g n) := by
  induction L with
  | nil => cases hn
  | cons x xs ih =>
    by_cases h : n = x
    · subst h
      simp [List.lookup]
    · rcases List.mem_cons.mp hn with h1 | h1
      · exact absurd h1 h
      · have hb : (n == x) = false := by simpa using h
        simp only [List.map_cons, List.lookup, hb]
        exact ih h1

theorem filter_map_fst {α : Type} (L : List String) (g : String → CompValue α) (n : String) :
    ((L.map (fun m => (m, g m))).filter (fun kv => decide (kv.1 = n))).length
      = (L.filter (fun m => decide (m = n))).length := by
  induction L with
  | nil => rfl
  | cons x xs ih =>
    simp only [List.map_cons, List.filter_cons]
    by_cases h : x = n
    · simp [h, ih]
    · simp [h, ih]

theorem length_filter_eq_one (L : List String) (n : String) (hmem : n ∈ L) (hnd : L.Nodup) :
    (L.filter (fun m => decide (m = n))).length = 1 := by
  induction L with
  | nil => cases hmem
  | cons x xs ih =>
    simp only [List.filter_cons]
    rcases List.mem_cons.mp hmem with rfl | h1
    · rw [if_pos (by simp)]
      have hnx : n ∉ xs := (List.nodup_cons.mp hnd).1
      have hxs : xs.filter (fun m => decide (m = n)) = [] := by
        rw [List.filter_eq_nil_iff]
        intro a ha
        simp only [decide_eq_true_eq]
        intro he
        subst he
        exact hnx ha
      simp [hxs]
    · by_cases hx : x = n
      · subst hx
        exact absurd h1 (List.nodup_cons.mp hnd).1
      · rw [if_neg (by simpa using hx)]
        exact ih h1 (List.nodup_cons.mp hnd).2

theorem mem_taskNames (f : CompFlags) (n : String) (hn : n ∈ taskNames f) :
    n = "kline" ∨ n = "financial" ∨ n = "money_flow" ∨ n = "news" := by
  obtain ⟨k, fi, m, nw⟩ := f
  cases k <;> cases fi <;> cases m <;> cases nw <;> simp_all [taskNames] <;> tauto

theorem nodup_taskNames (f : CompFlags) : (taskNames f).Nodup := by
  obtain ⟨k, fi, m, nw⟩ := f
  cases k <;> cases fi <;> cases m <;> cases nw <;> decide

theorem keys_comprehensive {α : Type} (ts sd ed ut : String) (f : CompFlags)
    (fetch : String → Except String α) :
    (get_stock_comprehensive_data α ts sd ed ut f fetch).map Prod.fst
      = ["ts_code", "start_date", "end_date", "update_time"] ++ taskNames f := by
  simp [get_stock_comprehensive_data, List.map_map, Function.comp_def]

/-- C2: for every composite request in which one submitted sub-request
fails with an upstream error and every other submitted sub-request
succeeds, `get_stock_comprehensive_data` returns (the embedding is a total
function: `asyncio.gather(..., return_exceptions=True)` lets no task
exception escape) a mapping with exactly one entry per submitted
sub-request label, in which the failing label is mapped to `None` and every
succeeding label to its fetched value. -/
theorem comprehensive_one_failure_contained {α : Type} (ts sd ed ut : String)
    (f : CompFlags) (fetch : String → Except String α) (bad e0 : String)
    (hbad : fetch bad = Except.error e0)
    (hok : ∀ n ∈ taskNames f, n ≠ bad → ∃ a, fetch n = Except.ok a) :
    (∀ n ∈ taskNames f,
      ((get_stock_comprehensive_data α ts sd ed ut f fetch).filter
          (fun kv => decide (kv.1 = n))).length = 1) ∧
    (bad ∈ taskNames f →
      (get_stock_comprehensive_data α ts sd ed ut f fetch).lookup bad
        = some CompValue.null) ∧
    (∀ n ∈ taskNames f, n ≠ bad → ∀ a, fetch n = Except.ok a →
      (get_stock_comprehensive_data α ts sd ed ut f fetch).lookup n
        = some (CompValue.data a)) := by
  refine ⟨?_, ?_, ?_⟩
  · intro n hn
    unfold get_stock_comprehensive_data
    rw [List.filter_append]
    have hmeta : ([("ts_code", CompValue.text (α := α) ts), ("start_date", CompValue.text sd),
        ("end_date", CompValue.text ed), ("update_time", CompValue.text ut)].filter
          (fun kv => decide (kv.1 = n))) = [] := by
      rcases mem_taskNames f n hn with rfl | rfl | rfl | rfl <;> simp
    rw [hmeta, List.nil_append, filter_map_fst,
      length_filter_eq_one _ n hn (nodup_taskNames f)]
  · intro hmem
    unfold get_stock_comprehensive_data
    have hmeta : ([("ts_code", CompValue.text (α := α) ts), ("start_date", CompValue.text sd),
        ("end_date", CompValue.text ed), ("update_time", CompValue.text ut)].lookup bad) = none := by
      rcases mem_taskNames f bad hmem with rfl | rfl | rfl | rfl <;> simp [List.lookup]
    rw [lookup_append_of_none _ _ _ hmeta, lookup_map_entry _ _ _ hmem, hbad]
  · intro n hn hne a ha
    unfold get_stock_comprehensive_data
    have hmeta : ([("ts_code", CompValue.text (α := α) ts), ("start_date", CompValue.text sd),
        ("end_date", CompValue.text ed), ("update_time", CompValue.text ut)].lookup n) = none := by
      rcases mem_taskNames f n hn with rfl | rfl | rfl | rfl <;> simp [List.lookup]
    rw [lookup_append_of_none _ _ _ hmeta, lookup_map_entry _ _ _ hn, ha]

/-- C2 witness: four submitted sub-requests, `"financial"` raising and the
other three succeeding. -/
theorem comprehensive_one_failure_contained_witness :
    ((get_stock_comprehensive_data ℕ "000001.SZ" "20240101" "20240131" "t"
        ⟨true, true, true, true⟩
        (fun n => if n = "financial" then Except.error "upstream" else Except.ok 7)).filter
          (fun kv => decide (kv.1 = "news"))).length = 1 ∧
    (get_stock_comprehensive_data ℕ "000001.SZ" "20240101" "20240131" "t"
        ⟨true, true, true, true⟩
        (fun n => if n = "financial" then Except.error "upstream" else Except.ok 7)).lookup
          "financial" = some CompValue.null ∧
    (get_stock_comprehensive_data ℕ "000001.SZ" "20240101" "20240131" "t"
        ⟨true, true, true, true⟩
        (fun n => if n = "financial" then Except.error "upstream" else Except.ok 7)).lookup
          "news" = some (CompValue.data 7) := by
  have h := comprehensive_one_failure_contained (α := ℕ) "000001.SZ" "20240101" "20240131" "t"
    ⟨true, true, true, true⟩
    (fun n => if n = "financial" then Except.error "upstream" else Except.ok 7)
    "financial" "upstream" (by simp)
    (fun n _ hne => ⟨7, by simp [hne]⟩)
  exact ⟨h.1 "news" (by decide), h.2.1 (by decide),
    h.2.2 "news" (by decide) (by decide) 7 (by simp)⟩

/-- C8: a sub-request disabled by its feature flag is never constructed,
and the composite mapping contains no entry at all under its label — for
each of the four flags. -/
theorem disabled_flag_label_absent {α : Type} (ts sd ed ut : String)
    (fetch : String → Except String α) :
    (∀ k2 fi m : Bool, "news" ∉
      (get_stock_comprehensive_data α ts sd ed ut ⟨k2, fi, m, false⟩ fetch).map Prod.fst) ∧
    (∀ fi m nw : Bool, "kline" ∉
      (get_stock_comprehensive_data α ts sd ed ut ⟨false, fi, m, nw⟩ fetch).map Prod.fst) ∧
    (∀ k2 m nw : Bool, "financial" ∉
      (get_stock_comprehensive_data α ts sd ed ut ⟨k2, false, m, nw⟩ fetch).map Prod.fst) ∧
    (∀ k2 fi nw : Bool, "money_flow" ∉
      (get_stock_comprehensive_data α ts sd ed ut ⟨k2, fi, false, nw⟩ fetch).map Prod.fst) := by
  refine ⟨?_, ?_, ?_, ?_⟩ <;>
    intro b1 b2 b3 <;>
    rw [keys_comprehensive] <;>
    intro hmem <;>
    rcases List.mem_append.mp hmem with h | h <;>
    first
      | simp at h
      | cases b1 <;> cases b2 <;> cases b3 <;> simp [taskNames] at h

/-! ## Arithmetic facts about the rolling primitives -/

theorem sum_const (c : ℚ) (xs : List ℚ) (h : ∀ x ∈ xs, x = c) :
    xs.sum = (xs.length : ℚ) * c := by
  induction xs with
  | nil => simp
  | cons x rest ih =>
    simp only [List.sum_cons, List.length_cons]
    rw [h x (List.mem_cons_self _ _), ih (fun y hy => h y (List.mem_cons_of_mem _ hy))]
    push_cast
    ring

theorem qmean_const (c : ℚ) (xs : List ℚ) (hne : xs ≠ []) (h : ∀ x ∈ xs, x = c) :
    qmean xs = c := by
  unfold qmean
  rw [sum_const c xs h]
  have hlen : ((xs.length : ℚ)) ≠ 0 := by
    have h2 := List.length_pos.mpr hne
    exact_mod_cast by omega
  rw [mul_comm, mul_div_assoc, div_self hlen, mul_one]

theorem sampleVar_const (c : ℚ) (xs : List ℚ) (hne : xs ≠ []) (h : ∀ x ∈ xs, x = c) :
    sampleVar xs = 0 := by
  unfold sampleVar
  have hz : ∀ y ∈ xs.map (fun x => (x - qmean xs) * (x - qmean xs)), y = 0 := by
    intro y hy
    obtain ⟨x, hx, rfl⟩ := List.mem_map.mp hy
    rw [h x hx, qmean_const c xs hne h]
    ring
  rw [sum_const 0 _ hz]
  simp

theorem ratSqrt_zero : ratSqrt 0 = 0 := by
  unfold ratSqrt
  norm_num

theorem winAt_length (p : ℕ) (xs : List ℚ) (i : ℕ) (hi : i < xs.length) :
    (winAt p xs i).length = min (i + 1) p := by
  unfold winAt
  rw [List.length_drop, List.length_take]
  omega

theorem mem_winAt (p : ℕ) (xs : List ℚ) (i : ℕ) (x : ℚ) (hx : x ∈ winAt p xs i) :
    x ∈ xs := by
  unfold winAt at hx
  exact List.mem_of_mem_take (List.mem_of_mem_drop hx)

theorem closes_sortRows_const (c : ℚ) (rows : List Row) (h : ∀ r ∈ rows, r.close = c) :
    ∀ x ∈ closes (sortRows rows), x = c := by
  intro x hx
  obtain ⟨r, hr, rfl⟩ := List.mem_map.mp hx
  exact h r (by simpa [sortRows] using hr)

/-! ## C7: rolling mean on a series shorter than the window -/

/-- C7: for a series of length `L < p` with `p` among the requested periods,
the `ma{p}` column of `calculate_ma` has, at every row `i`, the finite value
`mean(close[0..i])` of all rows available up to that row (in ascending
`trade_date` order) — no `NaN`/gap row; in particular the final row carries
the mean of all `L` closes. -/
theorem ma_short_series_full_mean (rows : List Row) (P : List ℕ) (p : ℕ)
    (hp : p ∈ P) (hL : rows.length < p) (i : ℕ) (hi : i < rows.length) :
    colVal (calculate_ma rows P) (ColKey.ma p) i
      = some (FV.num (qmean ((closes (sortRows rows)).take (i + 1)))) := by
  obtain ⟨r, rest, rfl⟩ : ∃ r rest, rows = r :: rest := by
    cases rows with
    | nil => simp at hi
    | cons r rest => exact ⟨r, rest, rfl⟩
  simp only [calculate_ma]
  set d1 := sortRows (r :: rest) with hd1
  have hl1 : d1.length = (r :: rest).length := length_sortRows _
  set d2 := P.foldl
    (fun d q => setColAll d (ColKey.ma q) ((rollingMean q (closes d)).map FV.num)) d1 with hd2
  have hl2 : d2.length = d1.length := by
    rw [hd2]
    exact length_foldl_setColAll P ColKey.ma _
      (fun d q => by simp [length_rollingMean, length_closes]) d1
  set d3 := volPeriodsCfg.foldl
    (fun d q => setColAll d (ColKey.volMa q) ((rollingMean q (vols d)).map FV.num)) d2 with hd3
  have hl3 : d3.length = d2.length := by
    rw [hd3]
    exact length_foldl_setColAll volPeriodsCfg ColKey.volMa _
      (fun d q => by simp [length_rollingMean, length_vols]) d2
  rw [colVal_setColAll_ne _ _ _ _ _ (by simp) (by simp [length_pctChange, length_closes])]
  rw [show colVal d3 (ColKey.ma p) i = colVal d2 (ColKey.ma p) i from
    colVal_foldl_setColAll_ne volPeriodsCfg ColKey.volMa
      (fun d q => (rollingMean q (vols d)).map FV.num) (ColKey.ma p)
      (fun q _ h => by simp at h)
      (fun d q => by simp [length_rollingMean, length_vols]) d2 i]
  obtain ⟨Q1, Q2, hsplit, hnot⟩ := exists_last_split hp
  rw [hd2, hsplit]
  rw [show colVal ((Q1 ++ p :: Q2).foldl
        (fun d q => setColAll d (ColKey.ma q) ((rollingMean q (closes d)).map FV.num)) d1)
        (ColKey.ma p) i = ((rollingMean p (closes d1)).map FV.num)[i]? from
    colVal_foldl_setColAll_last Q1 Q2 p ColKey.ma
      (fun d q => (rollingMean q (closes d)).map FV.num)
      (fun q hq h => by
        injection h with h2
        subst h2
        exact hnot hq)
      (fun d q => by simp [length_rollingMean, length_closes])
      (fun d k vals q hl => by
        show (rollingMean q (closes (setColAll d k vals))).map FV.num
          = (rollingMean q (closes d)).map FV.num
        rw [closes_setColAll d k vals hl])
      d1 i (by omega)]
  have hb1 : i < ((rollingMean p (closes d1)).map FV.num).length := by
    simp only [List.length_map, length_rollingMean, length_closes]
    omega
  have hb2 : i < (rollingMean p (closes d1)).length := by
    simp only [length_rollingMean, length_closes]
    omega
  have hb3 : i < (closes d1).length := by
    simp only [length_closes]
    omega
  rw [List.getElem?_eq_getElem hb1, List.getElem_map,
    getElem_rollingMean p (closes d1) i hb3 hb2]
  have hwin : winAt p (closes d1) i = (closes d1).take (i + 1) := by
    unfold winAt
    rw [show i + 1 - p = 0 by omega, List.drop_zero]
  rw [hwin]

/-- C7 witness: a two-row series with period `5 > 2`; row `1` carries the
mean of both closes. -/
theorem ma_short_series_full_mean_witness :
    colVal (calculate_ma [⟨0, 1, 1, 1, 1, []⟩, ⟨1, 2, 2, 2, 1, []⟩] [5]) (ColKey.ma 5) 1
      = some (FV.num (qmean ((closes (sortRows [⟨0, 1, 1, 1, 1, []⟩, ⟨1, 2, 2, 2, 1, []⟩])).take 2))) :=
  ma_short_series_full_mean [⟨0, 1, 1, 1, 1, []⟩, ⟨1, 2, 2, 2, 1, []⟩] [5] 5
    (by decide) (by decide) 1 (by decide)

/-! ## C3: volatility bands on a constant series -/

/-- C3 amended: on a nonempty constant-close series, with a band period of
at least 2, `boll_upper = boll_lower = boll_mid = close` at every row from
the second one on.  (At the first row the claim fails: pandas'
`rolling(..., min_periods=1).std()` uses `ddof=1`, so the one-observation
window yields `NaN`, which propagates into both bands — see the
counterexample.) -/
theorem boll_constant_equal_bands (c sdm : ℚ) (rows : List Row) (period : ℕ)
    (hconst : ∀ r ∈ rows, r.close = c) (hp : 2 ≤ period) (i : ℕ) (h1 : 1 ≤ i)
    (hi : i < rows.length) :
    colVal (calculate_bollinger_bands rows period sdm) ColKey.bollUpper i = some (FV.num c) ∧
    colVal (calculate_bollinger_bands rows period sdm) ColKey.bollLower i = some (FV.num c) ∧
    colVal (calculate_bollinger_bands rows period sdm) ColKey.bollMid i = some (FV.num c) := by
  obtain ⟨r, rest, rfl⟩ : ∃ r rest, rows = r :: rest := by
    cases rows with
    | nil => simp at hi
    | cons r rest => exact ⟨r, rest, rfl⟩
  simp only [calculate_bollinger_bands]
  set d1 := sortRows (r :: rest) with hd1
  have hl1 : d1.length = (r :: rest).length := length_sortRows _
  have hlc1 : (closes d1).length = d1.length := length_closes d1
  set mid := (rollingMean period (closes d1)).map FV.num with hmid
  have hlmid : mid.length = d1.length := by
    rw [hmid]
    simp [length_rollingMean, length_closes]
  set d2 := setColAll d1 ColKey.bollMid mid with hd2
  have hld2 : d2.length = d1.length := by
    rw [hd2]
    exact length_setColAll _ _ _ (by omega)
  have hcd2 : closes d2 = closes d1 := by
    rw [hd2]
    exact closes_setColAll _ _ _ (by omega)
  set std := rollingStd period (closes d2) with hstd
  have hlstd : std.length = d1.length := by
    rw [hstd, hcd2]
    simp [length_rollingStd, length_closes]
  set upper := List.zipWith (fun m s => FV.add m (FV.mul s (FV.num sdm))) mid std with hupper
  set lower := List.zipWith (fun m s => FV.sub m (FV.mul s (FV.num sdm))) mid std with hlower
  have hlup : upper.length = d1.length := by
    rw [hupper, List.length_zipWith]
    omega
  have hllo : lower.length = d1.length := by
    rw [hlower, List.length_zipWith]
    omega
  -- the window ending at row i, and the two facts about it
  have hconst1 : ∀ x ∈ closes d1, x = c := closes_sortRows_const c (r :: rest) hconst
  have hwlen : (winAt period (closes d1) i).length = min (i + 1) period :=
    winAt_length period (closes d1) i (by omega)
  have hwne : winAt period (closes d1) i ≠ [] := by
    intro h0
    rw [h0] at hwlen
    simp at hwlen
    omega
  have hwconst : ∀ x ∈ winAt period (closes d1) i, x = c :=
    fun x hx => hconst1 x (mem_winAt period (closes d1) i x hx)
  have hbx : i < (closes d1).length := by omega
  have hbm : i < mid.length := by omega
  have hbs : i < std.length := by omega
  have hbr : i < (rollingMean period (closes d1)).length := by
    rw [length_rollingMean]
    omega
  have hmid_i : mid[i] = FV.num c := by
    simp only [hmid]
    rw [List.getElem_map, getElem_rollingMean period (closes d1) i hbx hbr,
      qmean_const c _ hwne hwconst]
  have hstd_i : std[i] = FV.num 0 := by
    simp only [hstd]
    have hbs2 : i < (rollingStd period (closes d2)).length := by
      rw [length_rollingStd, hcd2]
      omega
    rw [getElem_rollingStd period (closes d2) i (by rw [hcd2]; omega) hbs2, hcd2]
    rw [if_neg (by rw [hwlen]; omega), sampleVar_const c _ hwne hwconst, ratSqrt_zero]
  have hup_i : upper[i] = FV.num c := by
    simp only [hupper]
    rw [List.getElem_zipWith, hmid_i, hstd_i]
    simp [FV.add, FV.mul]
  have hlo_i : lower[i] = FV.num c := by
    simp only [hlower]
    rw [List.getElem_zipWith, hmid_i, hstd_i]
    simp [FV.sub, FV.mul]
  have hlup2 : (setColAll d2 ColKey.bollUpper upper).length = d2.length :=
    length_setColAll _ _ _ (by omega)
  refine ⟨?_, ?_, ?_⟩
  · rw [colVal_setColAll_ne _ _ _ _ _ (by simp) (by omega),
      colVal_setColAll_self _ _ _ _ (by omega) (by omega), hup_i]
  · rw [colVal_setColAll_self _ _ _ _ (by omega) (by omega), hlo_i]
  · rw [colVal_setColAll_ne _ _ _ _ _ (by simp) (by omega),
      colVal_setColAll_ne _ _ _ _ _ (by simp) (by omega),
      colVal_setColAll_self _ _ _ _ (by omega) (by omega), hmid_i]

/-- C3 amended witness: a two-row constant series at close `5` with the
config defaults `period = 20`, `std_dev = 2`; at row `1` all three band
columns equal `5`. -/
theorem boll_constant_equal_bands_witness :
    colVal (calculate_bollinger_bands [⟨0, 5, 5, 5, 1, []⟩, ⟨1, 5, 5, 5, 1, []⟩] 20 2)
      ColKey.bollUpper 1 = some (FV.num 5) ∧
    colVal (calculate_bollinger_bands [⟨0, 5, 5, 5, 1, []⟩, ⟨1, 5, 5, 5, 1, []⟩] 20 2)
      ColKey.bollLower 1 = some (FV.num 5) ∧
    colVal (calculate_bollinger_bands [⟨0, 5, 5, 5, 1, []⟩, ⟨1, 5, 5, 5, 1, []⟩] 20 2)
      ColKey.bollMid 1 = some (FV.num 5) :=
  boll_constant_equal_bands 5 2 [⟨0, 5, 5, 5, 1, []⟩, ⟨1, 5, 5, 5, 1, []⟩] 20
    (by decide) (by decide) 1 (by decide) (by decide)

/-- C3 counterexample to the claim as stated: on the constant one-row series
with close `5` (base columns listed explicitly in the first conjunct), the
first row has `boll_upper = boll_lower = NaN` — pandas' `ddof=1` rolling
standard deviation is `NaN` on a one-observation window — while `boll_mid`
is a finite number, so `upper == lower == mid` fails at that row. -/
theorem boll_constant_counterexample :
    closes [(⟨0, 5, 5, 5, 1, []⟩ : Row)] = [5] ∧
    colVal (calculate_bollinger_bands [⟨0, 5, 5, 5, 1, []⟩] 20 2) ColKey.bollUpper 0
      = some FV.nan ∧
    colVal (calculate_bollinger_bands [⟨0, 5, 5, 5, 1, []⟩] 20 2) ColKey.bollLower 0
      = some FV.nan ∧
    colVal (calculate_bollinger_bands [⟨0, 5, 5, 5, 1, []⟩] 20 2) ColKey.bollUpper 0
      ≠ colVal (calculate_bollinger_bands [⟨0, 5, 5, 5, 1, []⟩] 20 2) ColKey.bollMid 0 :=
  ⟨rfl, by decide, by decide, by decide⟩

/-! ## C6: the RSI zero-average-loss rows -/

theorem rsiFromAvg_pos_zero (g : ℚ) (hg : 0 < g) : rsiFromAvg g 0 = FV.num 100 := by
  unfold rsiFromAvg
  rw [show FV.div (FV.num g) (FV.num 0) = FV.pinf from by
    unfold FV.div
    simp [hg]]
  rw [show FV.add (FV.num 1) FV.pinf = FV.pinf from rfl]
  rw [show FV.div (FV.num 100) FV.pinf = FV.num 0 from rfl]
  unfold FV.sub
  norm_num

theorem rsiFromAvg_zero_zero : rsiFromAvg 0 0 = FV.nan := by
  unfold rsiFromAvg
  rw [show FV.div (FV.num 0) (FV.num 0) = FV.nan from by
    unfold FV.div
    simp]
  rfl

/-- C6 amended: at every row where the trailing rolling average loss is `0`
and the rolling average gain is positive, `calculate_rsi` produces exactly
`100` — in float semantics `rs = avg_gain / 0 = +inf` and
`rsi = 100 - 100/(1 + inf) = 100`.  (When the average gain is *also* `0` —
a flat prefix, e.g. any first row — `rs = 0/0 = NaN` and the `rsi` value is
`NaN`, refuting the claim as stated; see the counterexample.) -/
theorem rsi_zero_loss_pos_gain (rows : List Row) (P : List ℕ) (p : ℕ)
    (hp : p ∈ P) (i : ℕ) (hi : i < rows.length)
    (hloss : (rollingMean p (rsiLoss (diffFV (closes (sortRows rows))))).getD i 0 = 0)
    (hgain : 0 < (rollingMean p (rsiGain (diffFV (closes (sortRows rows))))).getD i 0) :
    colVal (calculate_rsi rows P) (ColKey.rsi p) i = some (FV.num 100) := by
  obtain ⟨r, rest, rfl⟩ : ∃ r rest, rows = r :: rest := by
    cases rows with
    | nil => simp at hi
    | cons r rest => exact ⟨r, rest, rfl⟩
  simp only [calculate_rsi]
  set d1 := sortRows (r :: rest) with hd1
  have hl1 : d1.length = (r :: rest).length := length_sortRows _
  set delta := diffFV (closes d1) with hdelta
  have hldelta : delta.length = d1.length := by
    rw [hdelta, length_diffFV, length_closes]
  obtain ⟨Q1, Q2, hsplit, hnot⟩ := exists_last_split hp
  rw [hsplit]
  rw [show colVal ((Q1 ++ p :: Q2).foldl
        (fun d q => setColAll d (ColKey.rsi q) (rsiCol q delta)) d1) (ColKey.rsi p) i
        = (rsiCol p delta)[i]? from
    colVal_foldl_setColAll_last_const Q1 Q2 p ColKey.rsi (fun q => rsiCol q delta)
      (fun q hq h => by
        injection h with h2
        subst h2
        exact hnot hq)
      d1
      (fun q => by
        rw [length_rsiCol]
        omega)
      i (by omega)]
  have hbg : i < (rollingMean p (rsiGain delta)).length := by
    rw [length_rollingMean, length_rsiGain]
    omega
  have hbl : i < (rollingMean p (rsiLoss delta)).length := by
    rw [length_rollingMean, length_rsiLoss]
    omega
  have hbc : i < (rsiCol p delta).length := by
    rw [length_rsiCol]
    omega
  rw [List.getElem?_eq_getElem hbc]
  unfold rsiCol
  rw [List.getElem_zipWith]
  rw [List.getD_eq_getElem _ _ hbl] at hloss
  rw [List.getD_eq_getElem _ _ hbg] at hgain
  rw [hloss, rsiFromAvg_pos_zero _ hgain]

/-- C6 amended witness: the strictly rising two-row series `1, 2` with
period `6`; at row `1` the average loss is `0`, the average gain is `1/2`,
and the `rsi6` value is exactly `100`. -/
theorem rsi_zero_loss_pos_gain_witness :
    colVal (calculate_rsi [⟨0, 1, 1, 1, 1, []⟩, ⟨1, 2, 2, 2, 1, []⟩] [6]) (ColKey.rsi 6) 1
      = some (FV.num 100) :=
  rsi_zero_loss_pos_gain [⟨0, 1, 1, 1, 1, []⟩, ⟨1, 2, 2, 2, 1, []⟩] [6] 6
    (by decide) 1 (by decide)
    (by norm_num [sortRows, List.insertionSort, List.orderedInsert, closes, diffFV, diffAux,
      rsiLoss, rollingMean, winAt, qmean, List.range_succ])
    (by norm_num [sortRows, List.insertionSort, List.orderedInsert, closes, diffFV, diffAux,
      rsiGain, rollingMean, winAt, qmean, List.range_succ])

/-- C6 counterexample to the claim as stated: on the one-row series the
trailing average loss at row `0` is `0` (first conjunct), yet the `rsi6`
value is `NaN`, not a defined number — `delta` is `NaN` at the first row, so
`gain = loss = 0` and `rs = 0/0 = NaN` propagates. -/
theorem rsi_flat_nan_counterexample :
    rollingMean 6 (rsiLoss (diffFV (closes (sortRows [⟨0, 5, 5, 5, 1, []⟩])))) = [0] ∧
    colVal (calculate_rsi [⟨0, 5, 5, 5, 1, []⟩] [6]) (ColKey.rsi 6) 0 = some FV.nan := by
  have hloss : rollingMean 6 (rsiLoss (diffFV (closes (sortRows [(⟨0, 5, 5, 5, 1, []⟩ : Row)])))) = [0] := by
    norm_num [sortRows, List.insertionSort, List.orderedInsert, closes, diffFV, diffAux,
      rsiLoss, rollingMean, winAt, qmean, List.range_succ]
  refine ⟨hloss, ?_⟩
  have hgain : rollingMean 6 (rsiGain (diffFV (closes (sortRows [(⟨0, 5, 5, 5, 1, []⟩ : Row)])))) = [0] := by
    norm_num [sortRows, List.insertionSort, List.orderedInsert, closes, diffFV, diffAux,
      rsiGain, rollingMean, winAt, qmean, List.range_succ]
  show colVal ((([6] : List ℕ)).foldl
      (fun d q => setColAll d (ColKey.rsi q)
        (rsiCol q (diffFV (closes (sortRows [⟨0, 5, 5, 5, 1, []⟩])))))
      (sortRows [⟨0, 5, 5, 5, 1, []⟩])) (ColKey.rsi 6) 0 = some FV.nan
  rw [List.foldl_cons, List.foldl_nil]
  rw [colVal_setColAll_self _ _ _ _ (by decide)
    (by rw [length_rsiCol, length_diffFV, length_closes]; decide)]
  congr 1
  unfold rsiCol
  rw [List.getElem_zipWith]
  simp only [hgain, hloss, List.getElem_cons_zero]
  exact rsiFromAvg_zero_zero

/-! ## C5: input order is irrelevant, processing is ascending -/

instance rowDateLeTotal : IsTotal Row (fun a b => a.trade_date ≤ b.trade_date) :=
  ⟨fun a b => le_total a.trade_date b.trade_date⟩

instance rowDateLeTrans : IsTrans Row (fun a b => a.trade_date ≤ b.trade_date) :=
  ⟨fun _ _ _ h1 h2 => le_trans h1 h2⟩

instance rowDateLtAntisymm : IsAntisymm Row (fun a b => a.trade_date < b.trade_date) :=
  ⟨fun _ _ h1 h2 => absurd h2 (not_lt_of_lt h1)⟩

/-- Under the data-model invariant that timestamps within one series are
unique, any two row orders of the same series sort to the same list. -/
theorem sortRows_perm_eq (xs ys : List Row) (hperm : xs.Perm ys)
    (hnd : (xs.map Row.trade_date).Nodup) : sortRows xs = sortRows ys := by
  have hsx : List.Sorted (fun a b => a.trade_date ≤ b.trade_date) (sortRows xs) :=
    List.sorted_insertionSort _ xs
  have hsy : List.Sorted (fun a b => a.trade_date ≤ b.trade_date) (sortRows ys) :=
    List.sorted_insertionSort _ ys
  have hpx : (sortRows xs).Perm xs := List.perm_insertionSort _ xs
  have hpy : (sortRows ys).Perm ys := List.perm_insertionSort _ ys
  have hp2 : (sortRows xs).Perm (sortRows ys) := hpx.trans (hperm.trans hpy.symm)
  have hndx : ((sortRows xs).map Row.trade_date).Nodup :=
    ((hpx.map Row.trade_date).nodup_iff).mpr hnd
  have hndy : ((sortRows ys).map Row.trade_date).Nodup := by
    have hnd2 : (ys.map Row.trade_date).Nodup := ((hperm.map Row.trade_date).nodup_iff).mp hnd
    exact ((hpy.map Row.trade_date).nodup_iff).mpr hnd2
  have hlt : ∀ l : List Row, List.Sorted (fun a b => a.trade_date ≤ b.trade_date) l →
      (l.map Row.trade_date).Nodup →
      List.Sorted (fun a b => a.trade_date < b.trade_date) l := by
    intro l hs hn
    have hne := List.pairwise_map.mp hn
    exact (hs.and hne).imp (fun hab => lt_of_le_of_ne hab.1 hab.2)
  exact List.eq_of_perm_of_sorted hp2 (hlt _ hsx hndx) (hlt _ hsy hndy)

theorem dates_sortRows_sorted (df : List Row) :
    List.Sorted (· ≤ ·) (dates (sortRows df)) := by
  unfold dates
  exact List.pairwise_map.mpr (List.sorted_insertionSort _ df)

theorem dates_foldl_setColAll {ι : Type} (Q : List ι) (kf : ι → ColKey)
    (vf : List Row → ι → List FV) (hlen : ∀ d q, d.length ≤ (vf d q).length)
    (d0 : List Row) :
    dates (Q.foldl (fun d q => setColAll d (kf q) (vf d q)) d0) = dates d0 := by
  induction Q generalizing d0 with
  | nil => rfl
  | cons q Q ih =>
    simp only [List.foldl_cons]
    rw [ih, dates_setColAll _ _ _ (hlen d0 q)]

theorem dates_foldl_setColAll_const {ι : Type} (Q : List ι) (kf : ι → ColKey)
    (vf : ι → List FV) (d0 : List Row) (hlen : ∀ q, d0.length ≤ (vf q).length) :
    dates (Q.foldl (fun d q => setColAll d (kf q) (vf q)) d0) = dates d0 := by
  induction Q generalizing d0 with
  | nil => rfl
  | cons q Q ih =>
    simp only [List.foldl_cons]
    have h1 : (setColAll d0 (kf q) (vf q)).length = d0.length :=
      length_setColAll _ _ _ (hlen q)
    rw [ih _ (fun q2 => by rw [h1]; exact hlen q2), dates_setColAll _ _ _ (hlen q)]

theorem dates_calculate_ma (r : Row) (rest : List Row) (P : List ℕ) :
    dates (calculate_ma (r :: rest) P) = dates (sortRows (r :: rest)) := by
  simp only [calculate_ma]
  rw [dates_setColAll _ _ _ (by
      rw [List.length_map, length_pctChange, length_closes,
        length_foldl_setColAll volPeriodsCfg ColKey.volMa _
          (fun d q => by simp [length_rollingMean, length_vols]),
        length_foldl_setColAll P ColKey.ma _
          (fun d q => by simp [length_rollingMean, length_closes])]),
    dates_foldl_setColAll volPeriodsCfg ColKey.volMa _
      (fun d q => by simp [length_rollingMean, length_vols]),
    dates_foldl_setColAll P ColKey.ma _
      (fun d q => by simp [length_rollingMean, length_closes])]

theorem dates_calculate_rsi (r : Row) (rest : List Row) (P : List ℕ) :
    dates (calculate_rsi (r :: rest) P) = dates (sortRows (r :: rest)) := by
  simp only [calculate_rsi]
  rw [dates_foldl_setColAll_const P ColKey.rsi _ _
    (fun q => by rw [length_rsiCol, length_diffFV, length_closes])]

theorem dates_calculate_kdj (r : Row) (rest : List Row) (kp k1 k2 : ℕ) :
    dates (calculate_kdj (r :: rest) kp k1 k2) = dates (sortRows (r :: rest)) := by
  simp only [calculate_kdj]
  have hn : ∀ df2 : List Row, (rsvList kp (highs df2) (lows df2) (closes df2)).length
      = df2.length := fun df2 => by rw [length_rsvList, length_closes]
  set d1 := sortRows (r :: rest) with hd1
  have h1 : (ewm (1 / (k1 : ℚ)) (rsvList kp (highs d1) (lows d1) (closes d1))).length
      = d1.length := by rw [length_ewm, hn]
  have h2 : (ewm (1 / (k2 : ℚ)) (ewm (1 / (k1 : ℚ))
      (rsvList kp (highs d1) (lows d1) (closes d1)))).length = d1.length := by
    rw [length_ewm, h1]
  have hk : (setColAll d1 ColKey.kCol (ewm (1 / (k1 : ℚ))
      (rsvList kp (highs d1) (lows d1) (closes d1)))).length = d1.length :=
    length_setColAll _ _ _ (by omega)
  have hd : (setColAll (setColAll d1 ColKey.kCol (ewm (1 / (k1 : ℚ))
      (rsvList kp (highs d1) (lows d1) (closes d1)))) ColKey.dCol (ewm (1 / (k2 : ℚ))
      (ewm (1 / (k1 : ℚ)) (rsvList kp (highs d1) (lows d1) (closes d1))))).length
      = d1.length := by
    rw [length_setColAll _ _ _ (by omega), hk]
  rw [dates_setColAll _ _ _ (by rw [List.length_zipWith]; omega),
    dates_setColAll _ _ _ (by omega),
    dates_setColAll _ _ _ (by omega)]

theorem dates_calculate_bollinger_bands (r : Row) (rest : List Row) (bp : ℕ) (sdm : ℚ) :
    dates (calculate_bollinger_bands (r :: rest) bp sdm) = dates (sortRows (r :: rest)) := by
  simp only [calculate_bollinger_bands]
  set d1 := sortRows (r :: rest) with hd1
  have hlmid : ((rollingMean bp (closes d1)).map FV.num).length = d1.length := by
    simp [length_rollingMean, length_closes]
  have hld2 : (setColAll d1 ColKey.bollMid ((rollingMean bp (closes d1)).map FV.num)).length
      = d1.length := length_setColAll _ _ _ (by omega)
  have hlstd : (rollingStd bp (closes (setColAll d1 ColKey.bollMid
      ((rollingMean bp (closes d1)).map FV.num)))).length = d1.length := by
    rw [length_rollingStd, length_closes, hld2]
  have hlup : (setColAll (setColAll d1 ColKey.bollMid ((rollingMean bp (closes d1)).map FV.num))
      ColKey.bollUpper (List.zipWith (fun m s => FV.add m (FV.mul s (FV.num sdm)))
        ((rollingMean bp (closes d1)).map FV.num)
        (rollingStd bp (closes (setColAll d1 ColKey.bollMid
          ((rollingMean bp (closes d1)).map FV.num)))))).length = d1.length := by
    rw [length_setColAll _ _ _ (by rw [List.length_zipWith]; omega), hld2]
  rw [dates_setColAll _ _ _ (by rw [List.length_zipWith]; omega),
    dates_setColAll _ _ _ (by rw [List.length_zipWith]; omega),
    dates_setColAll _ _ _ (by omega)]

theorem dates_calculate_macd (r : Row) (rest : List Row) (fp sp gp : ℕ) :
    dates (calculate_macd (r :: rest) fp sp gp) = dates (sortRows (r :: rest)) := by
  simp only [calculate_macd]
  set d1 := sortRows (r :: rest) with hd1
  have hlc : ((closes d1).map FV.num).length = d1.length := by
    simp [length_closes]
  have hlf : (ewm (spanAlpha fp) ((closes d1).map FV.num)).length = d1.length := by
    rw [length_ewm, hlc]
  have hls : (ewm (spanAlpha sp) ((closes d1).map FV.num)).length = d1.length := by
    rw [length_ewm, hlc]
  have hldif : (List.zipWith FV.sub (ewm (spanAlpha fp) ((closes d1).map FV.num))
      (ewm (spanAlpha sp) ((closes d1).map FV.num))).length = d1.length := by
    rw [List.length_zipWith]
    omega
  have hldea : (ewm (spanAlpha gp) (List.zipWith FV.sub
      (ewm (spanAlpha fp) ((closes d1).map FV.num))
      (ewm (spanAlpha sp) ((closes d1).map FV.num)))).length = d1.length := by
    rw [length_ewm, hldif]
  have hl3 : (setColAll d1 ColKey.macdDif (List.zipWith FV.sub
      (ewm (spanAlpha fp) ((closes d1).map FV.num))
      (ewm (spanAlpha sp) ((closes d1).map FV.num)))).length = d1.length :=
    length_setColAll _ _ _ (by omega)
  have hl4 : (setColAll (setColAll d1 ColKey.macdDif (List.zipWith FV.sub
      (ewm (spanAlpha fp) ((closes d1).map FV.num))
      (ewm (spanAlpha sp) ((closes d1).map FV.num)))) ColKey.macdDea
      (ewm (spanAlpha gp) (List.zipWith FV.sub
        (ewm (spanAlpha fp) ((closes d1).map FV.num))
        (ewm (spanAlpha sp) ((closes d1).map FV.num))))).length = d1.length := by
    rw [length_setColAll _ _ _ (by omega), hl3]
  rw [dates_setColAll _ _ _ (by rw [List.length_zipWith, length_ewm]; omega),
    dates_setColAll _ _ _ (by omega),
    dates_setColAll _ _ _ (by omega)]

/-- C5: under the data-model invariant that timestamps within one series
are unique, every indicator function computes its derived columns on the
series rearranged in ascending timestamp order: the output is invariant
under any permutation of the input rows (so the input order is never
trusted), and the rows of each output are sorted ascending by
`trade_date`. -/
theorem indicators_input_order_irrelevant (xs ys : List Row) (hperm : xs.Perm ys)
    (hnd : (xs.map Row.trade_date).Nodup) (P Q : List ℕ)
    (kp k1 k2 bp fp sp gp : ℕ) (sdm : ℚ) :
    (calculate_ma xs P = calculate_ma ys P ∧
     calculate_rsi xs Q = calculate_rsi ys Q ∧
     calculate_kdj xs kp k1 k2 = calculate_kdj ys kp k1 k2 ∧
     calculate_bollinger_bands xs bp sdm = calculate_bollinger_bands ys bp sdm ∧
     calculate_macd xs fp sp gp = calculate_macd ys fp sp gp) ∧
    (List.Sorted (· ≤ ·) (dates (calculate_ma xs P)) ∧
     List.Sorted (· ≤ ·) (dates (calculate_rsi xs Q)) ∧
     List.Sorted (· ≤ ·) (dates (calculate_kdj xs kp k1 k2)) ∧
     List.Sorted (· ≤ ·) (dates (calculate_bollinger_bands xs bp sdm)) ∧
     List.Sorted (· ≤ ·) (dates (calculate_macd xs fp sp gp))) := by
  have hsort : sortRows xs = sortRows ys := sortRows_perm_eq xs ys hperm hnd
  have hlen := hperm.length_eq
  cases xs with
  | nil =>
    cases ys with
    | nil =>
      refine ⟨⟨rfl, rfl, rfl, rfl, rfl⟩, ?_⟩
      simp [calculate_ma, calculate_rsi, calculate_kdj, calculate_bollinger_bands,
        calculate_macd, dates]
    | cons y ys2 => simp at hlen
  | cons x xs2 =>
    cases ys with
    | nil => simp at hlen
    | cons y ys2 =>
      constructor
      · refine ⟨?_, ?_, ?_, ?_, ?_⟩ <;>
          simp only [calculate_ma, calculate_rsi, calculate_kdj,
            calculate_bollinger_bands, calculate_macd] <;>
          rw [hsort]
      · exact ⟨by rw [dates_calculate_ma]; exact dates_sortRows_sorted _,
          by rw [dates_calculate_rsi]; exact dates_sortRows_sorted _,
          by rw [dates_calculate_kdj]; exact dates_sortRows_sorted _,
          by rw [dates_calculate_bollinger_bands]; exact dates_sortRows_sorted _,
          by rw [dates_calculate_macd]; exact dates_sortRows_sorted _⟩

/-- C5 witness: the two-row series given in either order produces identical
outputs, sorted ascending. -/
theorem indicators_input_order_irrelevant_witness :
    (calculate_ma [⟨1, 2, 2, 2, 1, []⟩, ⟨0, 1, 1, 1, 1, []⟩] [5]
       = calculate_ma [⟨0, 1, 1, 1, 1, []⟩, ⟨1, 2, 2, 2, 1, []⟩] [5]) ∧
    List.Sorted (· ≤ ·) (dates (calculate_ma [⟨1, 2, 2, 2, 1, []⟩, ⟨0, 1, 1, 1, 1, []⟩] [5])) := by
  have h := indicators_input_order_irrelevant
    [⟨1, 2, 2, 2, 1, []⟩, ⟨0, 1, 1, 1, 1, []⟩]
    [⟨0, 1, 1, 1, 1, []⟩, ⟨1, 2, 2, 2, 1, []⟩]
    (List.Perm.swap _ _ _) (by decide) [5] [6] 9 3 3 20 12 26 9 2
  exact ⟨h.1.1, h.2.1⟩

/-! ## C9: idempotence of the indicator pipeline

Each `calculate_*` on a nonempty frame is "sort, then apply the column
writes"; the `apply*` forms below name the writes so that the second
application can be collapsed write by write. -/

/-- The column writes of `calculate_ma` (everything after the sort). -/
def applyMa (d1 : List Row) (periods : List ℕ) : List Row :=
  let d2 := periods.foldl
    (fun d p => setColAll d (ColKey.ma p) ((rollingMean p (closes d)).map FV.num)) d1
  let d3 := volPeriodsCfg.foldl
    (fun d p => setColAll d (ColKey.volMa p) ((rollingMean p (vols d)).map FV.num)) d2
  setColAll d3 ColKey.pctChg
    ((pctChange (closes d3)).map (fun v => FV.mul v (FV.num 100)))

/-- The column writes of `calculate_rsi`. -/
def applyRsi (d1 : List Row) (periods : List ℕ) : List Row :=
  let delta := diffFV (closes d1)
  periods.foldl (fun d q => setColAll d (ColKey.rsi q) (rsiCol q delta)) d1

/-- The column writes of `calculate_kdj`. -/
def applyKdj (d1 : List Row) (period kp dp : ℕ) : List Row :=
  let rsv := rsvList period (highs d1) (lows d1) (closes d1)
  let kv := ewm (1 / (kp : ℚ)) rsv
  let dv := ewm (1 / (dp : ℚ)) kv
  let jv := List.zipWith
    (fun a b => FV.sub (FV.mul (FV.num 3) a) (FV.mul (FV.num 2) b)) kv dv
  setColAll (setColAll (setColAll d1 ColKey.kCol kv) ColKey.dCol dv) ColKey.jCol jv

/-- The column writes of `calculate_bollinger_bands`. -/
def applyBoll (d1 : List Row) (period : ℕ) (std_dev : ℚ) : List Row :=
  let mid := (rollingMean period (closes d1)).map FV.num
  let d2 := setColAll d1 ColKey.bollMid mid
  let std := rollingStd period (closes d2)
  let upper := List.zipWith (fun m s => FV.add m (FV.mul s (FV.num std_dev))) mid std
  let lower := List.zipWith (fun m s => FV.sub m (FV.mul s (FV.num std_dev))) mid std
  setColAll (setColAll d2 ColKey.bollUpper upper) ColKey.bollLower lower

/-- The column writes of `calculate_macd`. -/
def applyMacd (d1 : List Row) (fast slow signal : ℕ) : List Row :=
  let cs := (closes d1).map FV.num
  let emaFast := ewm (spanAlpha fast) cs
  let emaSlow := ewm (spanAlpha slow) cs
  let dif := List.zipWith FV.sub emaFast emaSlow
  let dea := ewm (spanAlpha signal) dif
  let macd := List.zipWith (fun a b => FV.mul (FV.sub a b) (FV.num 2)) dif dea
  setColAll (setColAll (setColAll d1 ColKey.macdDif dif) ColKey.macdDea dea)
    ColKey.macdMacd macd

theorem calculate_ma_eq (df : List Row) (hne : df ≠ []) (P : List ℕ) :
    calculate_ma df P = applyMa (sortRows df) P := by
  cases df with
  | nil => exact absurd rfl hne
  | cons r rest => rfl

theorem calculate_rsi_eq (df : List Row) (hne : df ≠ []) (P : List ℕ) :
    calculate_rsi df P = applyRsi (sortRows df) P := by
  cases df with
  | nil => exact absurd rfl hne
  | cons r rest => rfl

theorem calculate_kdj_eq (df : List Row) (hne : df ≠ []) (period kp dp : ℕ) :
    calculate_kdj df period kp dp = applyKdj (sortRows df) period kp dp := by
  cases df with
  | nil => exact absurd rfl hne
  | cons r rest => rfl

theorem calculate_bollinger_bands_eq (df : List Row) (hne : df ≠ []) (period : ℕ) (sdm : ℚ) :
    calculate_bollinger_bands df period sdm = applyBoll (sortRows df) period sdm := by
  cases df with
  | nil => exact absurd rfl hne
  | cons r rest => rfl

theorem calculate_macd_eq (df : List Row) (hne : df ≠ []) (fast slow signal : ℕ) :
    calculate_macd df fast slow signal = applyMacd (sortRows df) fast slow signal := by
  cases df with
  | nil => exact absurd rfl hne
  | cons r rest => rfl

theorem map_foldl_setColAll {β : Type} (f : Row → β)
    (hf : ∀ (r : Row) (e : List (ColKey × FV)), f { r with extra := e } = f r)
    {ι : Type} (Q : List ι) (kf : ι → ColKey) (vf : List Row → ι → List FV)
    (hlen : ∀ d q, d.length ≤ (vf d q).length) (d0 : List Row) :
    (Q.foldl (fun d q => setColAll d (kf q) (vf d q)) d0).map f = d0.map f := by
  induction Q generalizing d0 with
  | nil => rfl
  | cons q Q ih =>
    simp only [List.foldl_cons]
    rw [ih, map_setColAll f hf _ _ _ (hlen d0 q)]

theorem map_foldl_setColAll_const {β : Type} (f : Row → β)
    (hf : ∀ (r : Row) (e : List (ColKey × FV)), f { r with extra := e } = f r)
    {ι : Type} (Q : List ι) (kf : ι → ColKey) (vf : ι → List FV) (d0 : List Row)
    (hlen : ∀ q, d0.length ≤ (vf q).length) :
    (Q.foldl (fun d q => setColAll d (kf q) (vf q)) d0).map f = d0.map f := by
  induction Q generalizing d0 with
  | nil => rfl
  | cons q Q ih =>
    simp only [List.foldl_cons]
    have h1 : (setColAll d0 (kf q) (vf q)).length = d0.length :=
      length_setColAll _ _ _ (hlen q)
    rw [ih _ (fun q2 => by rw [h1]; exact hlen q2), map_setColAll f hf _ _ _ (hlen q)]

theorem sortRows_eq_self (d : List Row) (h : List.Sorted (· ≤ ·) (dates d)) :
    sortRows d = d :=
  List.Sorted.insertionSort_eq (List.pairwise_map.mp h)

theorem foldl_fix {ι : Type} (g : List Row → ι → List Row) (d : List Row) :
    ∀ Q : List ι, (∀ q ∈ Q, g d q = d) → Q.foldl g d = d := by
  intro Q
  induction Q with
  | nil => intro _; rfl
  | cons q Q ih =>
    intro h
    simp only [List.foldl_cons, h q (List.mem_cons_self q Q)]
    exact ih (fun x hx => h x (List.mem_cons_of_mem _ hx))

theorem setColAll_self_eq (df : List Row) (k : ColKey) (vals : List FV)
    (hlen : vals.length = df.length)
    (h : ∀ i, i < df.length → colVal df k i = vals[i]?) :
    setColAll df k vals = df := by
  induction df generalizing vals with
  | nil =>
    cases vals with
    | nil => rfl
    | cons v vs => simp at hlen
  | cons r rest ih =>
    cases vals with
    | nil => simp at hlen
    | cons v vs =>
      simp only [setColAll, List.zipWith_cons_cons]
      have h0 := h 0 (by simp)
      simp only [colVal, List.getElem?_cons_zero] at h0
      rw [setK_eq_of_lookupK k v r.extra h0]
      have hrest : List.zipWith (fun r v => { r with extra := setK k v r.extra }) rest vs
          = rest := by
        have hr := ih vs (by simpa using hlen) (fun i hi => by
          have h2 := h (i + 1) (by simpa using Nat.succ_lt_succ hi)
          simpa only [colVal, List.getElem?_cons_succ] using h2)
        simpa only [setColAll] using hr
      rw [hrest]

/-! Base-column invariance of the five write phases. -/

theorem map_applyMa {β : Type} (f : Row → β)
    (hf : ∀ (r : Row) (e : List (ColKey × FV)), f { r with extra := e } = f r)
    (d : List Row) (P : List ℕ) : (applyMa d P).map f = d.map f := by
  unfold applyMa
  rw [map_setColAll f hf _ _ _ (by simp [length_pctChange, length_closes]),
    map_foldl_setColAll f hf volPeriodsCfg ColKey.volMa _
      (fun d2 q => by simp [length_rollingMean, length_vols]),
    map_foldl_setColAll f hf P ColKey.ma _
      (fun d2 q => by simp [length_rollingMean, length_closes])]

theorem map_applyRsi {β : Type} (f : Row → β)
    (hf : ∀ (r : Row) (e : List (ColKey × FV)), f { r with extra := e } = f r)
    (d : List Row) (P : List ℕ) : (applyRsi d P).map f = d.map f := by
  unfold applyRsi
  rw [map_foldl_setColAll_const f hf P ColKey.rsi _ _
    (fun q => by rw [length_rsiCol, length_diffFV, length_closes])]

theorem map_applyKdj {β : Type} (f : Row → β)
    (hf : ∀ (r : Row) (e : List (ColKey × FV)), f { r with extra := e } = f r)
    (d : List Row) (pe kp dp : ℕ) : (applyKdj d pe kp dp).map f = d.map f := by
  unfold applyKdj
  have h1 : (ewm (1 / (kp : ℚ)) (rsvList pe (highs d) (lows d) (closes d))).length
      = d.length := by rw [length_ewm, length_rsvList, length_closes]
  have h2 : (ewm (1 / (dp : ℚ)) (ewm (1 / (kp : ℚ))
      (rsvList pe (highs d) (lows d) (closes d)))).length = d.length := by
    rw [length_ewm, h1]
  have h3 : (setColAll d ColKey.kCol (ewm (1 / (kp : ℚ))
      (rsvList pe (highs d) (lows d) (closes d)))).length = d.length :=
    length_setColAll _ _ _ (by omega)
  have h4 : (setColAll (setColAll d ColKey.kCol (ewm (1 / (kp : ℚ))
      (rsvList pe (highs d) (lows d) (closes d)))) ColKey.dCol (ewm (1 / (dp : ℚ))
      (ewm (1 / (kp : ℚ)) (rsvList pe (highs d) (lows d) (closes d))))).length
      = d.length := by
    rw [length_setColAll _ _ _ (by omega), h3]
  rw [map_setColAll f hf _ _ _ (by rw [List.length_zipWith]; omega),
    map_setColAll f hf _ _ _ (by omega),
    map_setColAll f hf _ _ _ (by omega)]

theorem map_applyBoll {β : Type} (f : Row → β)
    (hf : ∀ (r : Row) (e : List (ColKey × FV)), f { r with extra := e } = f r)
    (d : List Row) (pe : ℕ) (sdm : ℚ) : (applyBoll d pe sdm).map f = d.map f := by
  unfold applyBoll
  have hlmid : ((rollingMean pe (closes d)).map FV.num).length = d.length := by
    simp [length_rollingMean, length_closes]
  have hld2 : (setColAll d ColKey.bollMid ((rollingMean pe (closes d)).map FV.num)).length
      = d.length := length_setColAll _ _ _ (by omega)
  have hlstd : (rollingStd pe (closes (setColAll d ColKey.bollMid
      ((rollingMean pe (closes d)).map FV.num)))).length = d.length := by
    rw [length_rollingStd, length_closes, hld2]
  have hlup : (setColAll (setColAll d ColKey.bollMid ((rollingMean pe (closes d)).map FV.num))
      ColKey.bollUpper (List.zipWith (fun m s => FV.add m (FV.mul s (FV.num sdm)))
        ((rollingMean pe (closes d)).map FV.num)
        (rollingStd pe (closes (setColAll d ColKey.bollMid
          ((rollingMean pe (closes d)).map FV.num)))))).length = d.length := by
    rw [length_setColAll _ _ _ (by rw [List.length_zipWith]; omega), hld2]
  rw [map_setColAll f hf _ _ _ (by rw [List.length_zipWith]; omega),
    map_setColAll f hf _ _ _ (by rw [List.length_zipWith]; omega),
    map_setColAll f hf _ _ _ (by omega)]

theorem map_applyMacd {β : Type} (f : Row → β)
    (hf : ∀ (r : Row) (e : List (ColKey × FV)), f { r with extra := e } = f r)
    (d : List Row) (fp sp gp : ℕ) : (applyMacd d fp sp gp).map f = d.map f := by
  unfold applyMacd
  have hlc : ((closes d).map FV.num).length = d.length := by simp [length_closes]
  have hldif : (List.zipWith FV.sub (ewm (spanAlpha fp) ((closes d).map FV.num))
      (ewm (spanAlpha sp) ((closes d).map FV.num))).length = d.length := by
    rw [List.length_zipWith, length_ewm, length_ewm, hlc]
    omega
  have hl3 : (setColAll d ColKey.macdDif (List.zipWith FV.sub
      (ewm (spanAlpha fp) ((closes d).map FV.num))
      (ewm (spanAlpha sp) ((closes d).map FV.num)))).length = d.length :=
    length_setColAll _ _ _ (by omega)
  have hl4 : (setColAll (setColAll d ColKey.macdDif (List.zipWith FV.sub
      (ewm (spanAlpha fp) ((closes d).map FV.num))
      (ewm (spanAlpha sp) ((closes d).map FV.num)))) ColKey.macdDea
      (ewm (spanAlpha gp) (List.zipWith FV.sub
        (ewm (spanAlpha fp) ((closes d).map FV.num))
        (ewm (spanAlpha sp) ((closes d).map FV.num))))).length = d.length := by
    rw [length_setColAll _ _ _ (by rw [length_ewm]; omega), hl3]
  rw [map_setColAll f hf _ _ _ (by rw [List.length_zipWith, length_ewm]; omega),
    map_setColAll f hf _ _ _ (by rw [length_ewm]; omega),
    map_setColAll f hf _ _ _ (by omega)]

/-! Canonical value lists of the kdj / bollinger / macd writes, with their
chain shapes and lengths. -/

/-- The `k` column as a function of the base columns. -/
def kdjKList (d : List Row) (pe kp : ℕ) : List FV :=
  ewm (1 / (kp : ℚ)) (rsvList pe (highs d) (lows d) (closes d))

/-- The `d` column as a function of the base columns. -/
def kdjDList (d : List Row) (pe kp dp : ℕ) : List FV :=
  ewm (1 / (dp : ℚ)) (kdjKList d pe kp)

/-- The `j` column as a function of the base columns. -/
def kdjJList (d : List Row) (pe kp dp : ℕ) : List FV :=
  List.zipWith (fun a b => FV.sub (FV.mul (FV.num 3) a) (FV.mul (FV.num 2) b))
    (kdjKList d pe kp) (kdjDList d pe kp dp)

/-- The `boll_mid` column as a function of the base columns. -/
def bollMidList (d : List Row) (pe : ℕ) : List FV :=
  (rollingMean pe (closes d)).map FV.num

/-- The rolling standard deviation read after the `boll_mid` write. -/
def bollStdList (d : List Row) (pe : ℕ) : List FV :=
  rollingStd pe (closes (setColAll d ColKey.bollMid (bollMidList d pe)))

/-- The `boll_upper` column. -/
def bollUpList (d : List Row) (pe : ℕ) (sdm : ℚ) : List FV :=
  List.zipWith (fun m s => FV.add m (FV.mul s (FV.num sdm)))
    (bollMidList d pe) (bollStdList d pe)

/-- The `boll_lower` column. -/
def bollLoList (d : List Row) (pe : ℕ) (sdm : ℚ) : List FV :=
  List.zipWith (fun m s => FV.sub m (FV.mul s (FV.num sdm)))
    (bollMidList d pe) (bollStdList d pe)

/-- The `macd_dif` column. -/
def macdDifList (d : List Row) (fp sp : ℕ) : List FV :=
  List.zipWith FV.sub (ewm (spanAlpha fp) ((closes d).map FV.num))
    (ewm (spanAlpha sp) ((closes d).map FV.num))

/-- The `macd_dea` column. -/
def macdDeaList (d : List Row) (fp sp gp : ℕ) : List FV :=
  ewm (spanAlpha gp) (macdDifList d fp sp)

/-- The `macd_macd` column. -/
def macdMacdList (d : List Row) (fp sp gp : ℕ) : List FV :=
  List.zipWith (fun a b => FV.mul (FV.sub a b) (FV.num 2))
    (macdDifList d fp sp) (macdDeaList d fp sp gp)

theorem applyKdj_chain (d : List Row) (pe kp dp : ℕ) :
    applyKdj d pe kp dp
      = setColAll (setColAll (setColAll d ColKey.kCol (kdjKList d pe kp))
          ColKey.dCol (kdjDList d pe kp dp)) ColKey.jCol (kdjJList d pe kp dp) := rfl

theorem applyBoll_chain (d : List Row) (pe : ℕ) (sdm : ℚ) :
    applyBoll d pe sdm
      = setColAll (setColAll (setColAll d ColKey.bollMid (bollMidList d pe))
          ColKey.bollUpper (bollUpList d pe sdm)) ColKey.bollLower (bollLoList d pe sdm) := rfl

theorem applyMacd_chain (d : List Row) (fp sp gp : ℕ) :
    applyMacd d fp sp gp
      = setColAll (setColAll (setColAll d ColKey.macdDif (macdDifList d fp sp))
          ColKey.macdDea (macdDeaList d fp sp gp)) ColKey.macdMacd (macdMacdList d fp sp gp) := rfl

theorem length_kdjKList (d : List Row) (pe kp : ℕ) :
    (kdjKList d pe kp).length = d.length := by
  rw [kdjKList, length_ewm, length_rsvList, length_closes]

theorem length_kdjDList (d : List Row) (pe kp dp : ℕ) :
    (kdjDList d pe kp dp).length = d.length := by
  rw [kdjDList, length_ewm, length_kdjKList]

theorem length_kdjJList (d : List Row) (pe kp dp : ℕ) :
    (kdjJList d pe kp dp).length = d.length := by
  rw [kdjJList, List.length_zipWith, length_kdjKList, length_kdjDList]
  omega

theorem length_bollMidList (d : List Row) (pe : ℕ) :
    (bollMidList d pe).length = d.length := by
  rw [bollMidList, List.length_map, length_rollingMean, length_closes]

theorem length_bollStdList (d : List Row) (pe : ℕ) :
    (bollStdList d pe).length = d.length := by
  rw [bollStdList, length_rollingStd, length_closes,
    length_setColAll _ _ _ (by rw [length_bollMidList])]

theorem length_bollUpList (d : List Row) (pe : ℕ) (sdm : ℚ) :
    (bollUpList d pe sdm).length = d.length := by
  rw [bollUpList, List.length_zipWith, length_bollMidList, length_bollStdList]
  omega

theorem length_bollLoList (d : List Row) (pe : ℕ) (sdm : ℚ) :
    (bollLoList d pe sdm).length = d.length := by
  rw [bollLoList, List.length_zipWith, length_bollMidList, length_bollStdList]
  omega

theorem length_macdDifList (d : List Row) (fp sp : ℕ) :
    (macdDifList d fp sp).length = d.length := by
  rw [macdDifList, List.length_zipWith, length_ewm, length_ewm, List.length_map,
    length_closes]
  omega

theorem length_macdDeaList (d : List Row) (fp sp gp : ℕ) :
    (macdDeaList d fp sp gp).length = d.length := by
  rw [macdDeaList, length_ewm, length_macdDifList]

theorem length_macdMacdList (d : List Row) (fp sp gp : ℕ) :
    (macdMacdList d fp sp gp).length = d.length := by
  rw [macdMacdList, List.length_zipWith, length_macdDifList, length_macdDeaList]
  omega

/-- Base-column invariance of the full write pipeline, packaged. -/
def R5 (d : List Row) : List Row :=
  applyMacd
    (applyBoll
      (applyKdj (applyRsi (applyMa d maPeriodsCfg) rsiPeriodsCfg)
        kdjPeriodCfg kdjKCfg kdjDCfg)
      bollPeriodCfg bollStdCfg)
    macdFastCfg macdSlowCfg macdSignalCfg

theorem map_R5 {β : Type} (f : Row → β)
    (hf : ∀ (r : Row) (e : List (ColKey × FV)), f { r with extra := e } = f r)
    (d : List Row) : (R5 d).map f = d.map f := by
  unfold R5
  rw [map_applyMacd f hf, map_applyBoll f hf, map_applyKdj f hf, map_applyRsi f hf,
    map_applyMa f hf]

theorem closes_R5 (d : List Row) : closes (R5 d) = closes d :=
  map_R5 Row.close (fun _ _ => rfl) d

theorem highs_R5 (d : List Row) : highs (R5 d) = highs d :=
  map_R5 Row.high (fun _ _ => rfl) d

theorem lows_R5 (d : List Row) : lows (R5 d) = lows d :=
  map_R5 Row.low (fun _ _ => rfl) d

theorem vols_R5 (d : List Row) : vols (R5 d) = vols d :=
  map_R5 Row.vol (fun _ _ => rfl) d

theorem dates_R5 (d : List Row) : dates (R5 d) = dates d :=
  map_R5 Row.trade_date (fun _ _ => rfl) d

theorem length_R5 (d : List Row) : (R5 d).length = d.length := by
  have h := congrArg List.length (dates_R5 d)
  simpa [dates] using h

/-! Column contents of each write phase, and preservation of all other
columns. -/

theorem colVal_applyMa_ma (d : List Row) (P : List ℕ) (p : ℕ) (hp : p ∈ P)
    (i : ℕ) (hi : i < d.length) :
    colVal (applyMa d P) (ColKey.ma p) i = ((rollingMean p (closes d)).map FV.num)[i]? := by
  unfold applyMa
  rw [colVal_setColAll_ne _ _ _ _ _ (by simp) (by simp [length_pctChange, length_closes])]
  rw [show colVal (volPeriodsCfg.foldl
        (fun d2 q => setColAll d2 (ColKey.volMa q) ((rollingMean q (vols d2)).map FV.num))
        (P.foldl (fun d2 q => setColAll d2 (ColKey.ma q) ((rollingMean q (closes d2)).map FV.num)) d))
        (ColKey.ma p) i
      = colVal (P.foldl (fun d2 q => setColAll d2 (ColKey.ma q) ((rollingMean q (closes d2)).map FV.num)) d)
        (ColKey.ma p) i from
    colVal_foldl_setColAll_ne volPeriodsCfg ColKey.volMa
      (fun d2 q => (rollingMean q (vols d2)).map FV.num) (ColKey.ma p)
      (fun q _ h => by simp at h)
      (fun d2 q => by simp [length_rollingMean, length_vols]) _ i]
  obtain ⟨Q1, Q2, hsplit, hnot⟩ := exists_last_split hp
  rw [hsplit]
  exact colVal_foldl_setColAll_last Q1 Q2 p ColKey.ma
    (fun d2 q => (rollingMean q (closes d2)).map FV.num)
    (fun q hq h => by
      injection h with h2
      subst h2
      exact hnot hq)
    (fun d2 q => by simp [length_rollingMean, length_closes])
    (fun d2 k vals q hl => by
      show (rollingMean q (closes (setColAll d2 k vals))).map FV.num
        = (rollingMean q (closes d2)).map FV.num
      rw [closes_setColAll d2 k vals hl])
    d i hi

theorem colVal_applyMa_volMa (d : List Row) (P : List ℕ) (q : ℕ) (hq : q ∈ volPeriodsCfg)
    (i : ℕ) (hi : i < d.length) :
    colVal (applyMa d P) (ColKey.volMa q) i = ((rollingMean q (vols d)).map FV.num)[i]? := by
  unfold applyMa
  have hl2 : (P.foldl (fun d2 p => setColAll d2 (ColKey.ma p)
      ((rollingMean p (closes d2)).map FV.num)) d).length = d.length :=
    length_foldl_setColAll P ColKey.ma _
      (fun d2 p => by simp [length_rollingMean, length_closes]) d
  have hv2 : vols (P.foldl (fun d2 p => setColAll d2 (ColKey.ma p)
      ((rollingMean p (closes d2)).map FV.num)) d) = vols d :=
    map_foldl_setColAll Row.vol (fun _ _ => rfl) P ColKey.ma _
      (fun d2 p => by simp [length_rollingMean, length_closes]) d
  rw [colVal_setColAll_ne _ _ _ _ _ (by simp) (by simp [length_pctChange, length_closes])]
  obtain ⟨Q1, Q2, hsplit, hnot⟩ := exists_last_split hq
  rw [hsplit]
  rw [show colVal ((Q1 ++ q :: Q2).foldl
        (fun d2 q2 => setColAll d2 (ColKey.volMa q2) ((rollingMean q2 (vols d2)).map FV.num))
        (P.foldl (fun d2 p => setColAll d2 (ColKey.ma p) ((rollingMean p (closes d2)).map FV.num)) d))
        (ColKey.volMa q) i
      = ((rollingMean q (vols (P.foldl (fun d2 p => setColAll d2 (ColKey.ma p)
          ((rollingMean p (closes d2)).map FV.num)) d))).map FV.num)[i]? from
    colVal_foldl_setColAll_last Q1 Q2 q ColKey.volMa
      (fun d2 q2 => (rollingMean q2 (vols d2)).map FV.num)
      (fun q2 hq2 h => by
        injection h with h2
        subst h2
        exact hnot hq2)
      (fun d2 q2 => by simp [length_rollingMean, length_vols])
      (fun d2 k vals q2 hl => by
        show (rollingMean q2 (vols (setColAll d2 k vals))).map FV.num
          = (rollingMean q2 (vols d2)).map FV.num
        rw [vols_setColAll d2 k vals hl])
      _ i (by omega)]
  rw [hv2]

theorem colVal_applyMa_pct (d : List Row) (P : List ℕ) (i : ℕ) (hi : i < d.length) :
    colVal (applyMa d P) ColKey.pctChg i
      = ((pctChange (closes d)).map (fun v => FV.mul v (FV.num 100)))[i]? := by
  unfold applyMa
  have hl2 : (P.foldl (fun d2 p => setColAll d2 (ColKey.ma p)
      ((rollingMean p (closes d2)).map FV.num)) d).length = d.length :=
    length_foldl_setColAll P ColKey.ma _
      (fun d2 p => by simp [length_rollingMean, length_closes]) d
  have hc2 : closes (P.foldl (fun d2 p => setColAll d2 (ColKey.ma p)
      ((rollingMean p (closes d2)).map FV.num)) d) = closes d :=
    map_foldl_setColAll Row.close (fun _ _ => rfl) P ColKey.ma _
      (fun d2 p => by simp [length_rollingMean, length_closes]) d
  have hl3 : (volPeriodsCfg.foldl (fun d2 q => setColAll d2 (ColKey.volMa q)
      ((rollingMean q (vols d2)).map FV.num))
      (P.foldl (fun d2 p => setColAll d2 (ColKey.ma p)
        ((rollingMean p (closes d2)).map FV.num)) d)).length = d.length := by
    rw [length_foldl_setColAll volPeriodsCfg ColKey.volMa _
      (fun d2 q => by simp [length_rollingMean, length_vols]), hl2]
  have hc3 : closes (volPeriodsCfg.foldl (fun d2 q => setColAll d2 (ColKey.volMa q)
      ((rollingMean q (vols d2)).map FV.num))
      (P.foldl (fun d2 p => setColAll d2 (ColKey.ma p)
        ((rollingMean p (closes d2)).map FV.num)) d)) = closes d := by
    have h1 := map_foldl_setColAll Row.close (fun _ _ => rfl) volPeriodsCfg ColKey.volMa
      (fun d2 q => (rollingMean q (vols d2)).map FV.num)
      (fun d2 q => by simp [length_rollingMean, length_vols])
      (P.foldl (fun d2 p => setColAll d2 (ColKey.ma p)
        ((rollingMean p (closes d2)).map FV.num)) d)
    exact h1.trans hc2
  rw [colVal_setColAll_self _ _ _ _ (by omega)
    (by rw [List.length_map, length_pctChange, length_closes]; omega)]
  simp only [hc3]
  rw [List.getElem?_eq_getElem (by rw [List.length_map, length_pctChange, length_closes]; omega)]

theorem colVal_applyMa_other (d : List Row) (P : List ℕ) (k : ColKey)
    (h1 : ∀ p, k ≠ ColKey.ma p) (h2 : ∀ q, k ≠ ColKey.volMa q) (h3 : k ≠ ColKey.pctChg)
    (i : ℕ) :
    colVal (applyMa d P) k i = colVal d k i := by
  unfold applyMa
  rw [colVal_setColAll_ne _ _ _ _ _ (Ne.symm h3)
    (by simp [length_pctChange, length_closes])]
  rw [show colVal (volPeriodsCfg.foldl
        (fun d2 q => setColAll d2 (ColKey.volMa q) ((rollingMean q (vols d2)).map FV.num))
        (P.foldl (fun d2 p => setColAll d2 (ColKey.ma p) ((rollingMean p (closes d2)).map FV.num)) d))
        k i
      = colVal (P.foldl (fun d2 p => setColAll d2 (ColKey.ma p)
          ((rollingMean p (closes d2)).map FV.num)) d) k i from
    colVal_foldl_setColAll_ne volPeriodsCfg ColKey.volMa
      (fun d2 q => (rollingMean q (vols d2)).map FV.num) k
      (fun q _ => Ne.symm (h2 q))
      (fun d2 q => by simp [length_rollingMean, length_vols]) _ i]
  exact colVal_foldl_setColAll_ne P ColKey.ma
    (fun d2 p => (rollingMean p (closes d2)).map FV.num) k
    (fun p _ => Ne.symm (h1 p))
    (fun d2 p => by simp [length_rollingMean, length_closes]) d i

theorem colVal_applyRsi_rsi (d : List Row) (P : List ℕ) (q : ℕ) (hq : q ∈ P)
    (i : ℕ) (hi : i < d.length) :
    colVal (applyRsi d P) (ColKey.rsi q) i = (rsiCol q (diffFV (closes d)))[i]? := by
  unfold applyRsi
  obtain ⟨Q1, Q2, hsplit, hnot⟩ := exists_last_split hq
  rw [hsplit]
  exact colVal_foldl_setColAll_last_const Q1 Q2 q ColKey.rsi
    (fun q2 => rsiCol q2 (diffFV (closes d)))
    (fun q2 hq2 h => by
      injection h with h2
      subst h2
      exact hnot hq2)
    d
    (fun q2 => by rw [length_rsiCol, length_diffFV, length_closes])
    i hi

theorem colVal_applyRsi_other (d : List Row) (P : List ℕ) (k : ColKey)
    (h1 : ∀ q, k ≠ ColKey.rsi q) (i : ℕ) :
    colVal (applyRsi d P) k i = colVal d k i := by
  unfold applyRsi
  exact colVal_foldl_setColAll_ne_const P ColKey.rsi
    (fun q => rsiCol q (diffFV (closes d))) k
    (fun q _ => Ne.symm (h1 q)) d
    (fun q => by rw [length_rsiCol, length_diffFV, length_closes]) i

theorem kdj_chain_lengths (d : List Row) (pe kp dp : ℕ) :
    (setColAll d ColKey.kCol (kdjKList d pe kp)).length = d.length ∧
    (setColAll (setColAll d ColKey.kCol (kdjKList d pe kp)) ColKey.dCol
      (kdjDList d pe kp dp)).length = d.length := by
  have e1 := length_kdjKList d pe kp
  have e2 := length_kdjDList d pe kp dp
  have e4 : (setColAll d ColKey.kCol (kdjKList d pe kp)).length = d.length :=
    length_setColAll _ _ _ (by omega)
  refine ⟨e4, ?_⟩
  rw [length_setColAll _ _ _ (by omega)]
  exact e4

theorem colVal_applyKdj_k (d : List Row) (pe kp dp : ℕ) (i : ℕ) (hi : i < d.length) :
    colVal (applyKdj d pe kp dp) ColKey.kCol i = (kdjKList d pe kp)[i]? := by
  have e1 := length_kdjKList d pe kp
  have e2 := length_kdjDList d pe kp dp
  have e3 := length_kdjJList d pe kp dp
  obtain ⟨e4, e5⟩ := kdj_chain_lengths d pe kp dp
  rw [applyKdj_chain]
  rw [colVal_setColAll_ne _ _ _ _ _ (by simp) (by omega),
    colVal_setColAll_ne _ _ _ _ _ (by simp) (by omega),
    colVal_setColAll_self _ _ _ _ (by omega) (by omega),
    List.getElem?_eq_getElem (by omega)]

theorem colVal_applyKdj_d (d : List Row) (pe kp dp : ℕ) (i : ℕ) (hi : i < d.length) :
    colVal (applyKdj d pe kp dp) ColKey.dCol i = (kdjDList d pe kp dp)[i]? := by
  have e1 := length_kdjKList d pe kp
  have e2 := length_kdjDList d pe kp dp
  have e3 := length_kdjJList d pe kp dp
  obtain ⟨e4, e5⟩ := kdj_chain_lengths d pe kp dp
  rw [applyKdj_chain]
  rw [colVal_setColAll_ne _ _ _ _ _ (by simp) (by omega),
    colVal_setColAll_self _ _ _ _ (by omega) (by omega),
    List.getElem?_eq_getElem (by omega)]

theorem colVal_applyKdj_j (d : List Row) (pe kp dp : ℕ) (i : ℕ) (hi : i < d.length) :
    colVal (applyKdj d pe kp dp) ColKey.jCol i = (kdjJList d pe kp dp)[i]? := by
  have e3 := length_kdjJList d pe kp dp
  obtain ⟨e4, e5⟩ := kdj_chain_lengths d pe kp dp
  rw [applyKdj_chain]
  rw [colVal_setColAll_self _ _ _ _ (by omega) (by omega),
    List.getElem?_eq_getElem (by omega)]

theorem colVal_applyKdj_other (d : List Row) (pe kp dp : ℕ) (k : ColKey)
    (h1 : k ≠ ColKey.kCol) (h2 : k ≠ ColKey.dCol) (h3 : k ≠ ColKey.jCol) (i : ℕ) :
    colVal (applyKdj d pe kp dp) k i = colVal d k i := by
  have e1 := length_kdjKList d pe kp
  have e2 := length_kdjDList d pe kp dp
  have e3 := length_kdjJList d pe kp dp
  obtain ⟨e4, e5⟩ := kdj_chain_lengths d pe kp dp
  rw [applyKdj_chain]
  rw [colVal_setColAll_ne _ _ _ _ _ (Ne.symm h3) (by omega),
    colVal_setColAll_ne _ _ _ _ _ (Ne.symm h2) (by omega),
    colVal_setColAll_ne _ _ _ _ _ (Ne.symm h1) (by omega)]

theorem boll_chain_lengths (d : List Row) (pe : ℕ) (sdm : ℚ) :
    (setColAll d ColKey.bollMid (bollMidList d pe)).length = d.length ∧
    (setColAll (setColAll d ColKey.bollMid (bollMidList d pe)) ColKey.bollUpper
      (bollUpList d pe sdm)).length = d.length := by
  have e1 := length_bollMidList d pe
  have e2 := length_bollUpList d pe sdm
  have e4 : (setColAll d ColKey.bollMid (bollMidList d pe)).length = d.length :=
    length_setColAll _ _ _ (by omega)
  refine ⟨e4, ?_⟩
  rw [length_setColAll _ _ _ (by omega)]
  exact e4

theorem colVal_applyBoll_mid (d : List Row) (pe : ℕ) (sdm : ℚ) (i : ℕ) (hi : i < d.length) :
    colVal (applyBoll d pe sdm) ColKey.bollMid i = (bollMidList d pe)[i]? := by
  have e1 := length_bollMidList d pe
  have e2 := length_bollUpList d pe sdm
  have e3 := length_bollLoList d pe sdm
  obtain ⟨e4, e5⟩ := boll_chain_lengths d pe sdm
  rw [applyBoll_chain]
  rw [colVal_setColAll_ne _ _ _ _ _ (by simp) (by omega),
    colVal_setColAll_ne _ _ _ _ _ (by simp) (by omega),
    colVal_setColAll_self _ _ _ _ (by omega) (by omega),
    List.getElem?_eq_getElem (by omega)]

theorem colVal_applyBoll_upper (d : List Row) (pe : ℕ) (sdm : ℚ) (i : ℕ) (hi : i < d.length) :
    colVal (applyBoll d pe sdm) ColKey.bollUpper i = (bollUpList d pe sdm)[i]? := by
  have e2 := length_bollUpList d pe sdm
  have e3 := length_bollLoList d pe sdm
  obtain ⟨e4, e5⟩ := boll_chain_lengths d pe sdm
  rw [applyBoll_chain]
  rw [colVal_setColAll_ne _ _ _ _ _ (by simp) (by omega),
    colVal_setColAll_self _ _ _ _ (by omega) (by omega),
    List.getElem?_eq_getElem (by omega)]

theorem colVal_applyBoll_lower (d : List Row) (pe : ℕ) (sdm : ℚ) (i : ℕ) (hi : i < d.length) :
    colVal (applyBoll d pe sdm) ColKey.bollLower i = (bollLoList d pe sdm)[i]? := by
  have e3 := length_bollLoList d pe sdm
  obtain ⟨e4, e5⟩ := boll_chain_lengths d pe sdm
  rw [applyBoll_chain]
  rw [colVal_setColAll_self _ _ _ _ (by omega) (by omega),
    List.getElem?_eq_getElem (by omega)]

theorem colVal_applyBoll_other (d : List Row) (pe : ℕ) (sdm : ℚ) (k : ColKey)
    (h1 : k ≠ ColKey.bollMid) (h2 : k ≠ ColKey.bollUpper) (h3 : k ≠ ColKey.bollLower)
    (i : ℕ) :
    colVal (applyBoll d pe sdm) k i = colVal d k i := by
  have e1 := length_bollMidList d pe
  have e2 := length_bollUpList d pe sdm
  have e3 := length_bollLoList d pe sdm
  obtain ⟨e4, e5⟩ := boll_chain_lengths d pe sdm
  rw [applyBoll_chain]
  rw [colVal_setColAll_ne _ _ _ _ _ (Ne.symm h3) (by omega),
    colVal_setColAll_ne _ _ _ _ _ (Ne.symm h2) (by omega),
    colVal_setColAll_ne _ _ _ _ _ (Ne.symm h1) (by omega)]

theorem macd_chain_lengths (d : List Row) (fp sp gp : ℕ) :
    (setColAll d ColKey.macdDif (macdDifList d fp sp)).length = d.length ∧
    (setColAll (setColAll d ColKey.macdDif (macdDifList d fp sp)) ColKey.macdDea
      (macdDeaList d fp sp gp)).length = d.length := by
  have e1 := length_macdDifList d fp sp
  have e2 := length_macdDeaList d fp sp gp
  have e4 : (setColAll d ColKey.macdDif (macdDifList d fp sp)).length = d.length :=
    length_setColAll _ _ _ (by omega)
  refine ⟨e4, ?_⟩
  rw [length_setColAll _ _ _ (by omega)]
  exact e4

theorem colVal_applyMacd_dif (d : List Row) (fp sp gp : ℕ) (i : ℕ) (hi : i < d.length) :
    colVal (applyMacd d fp sp gp) ColKey.macdDif i = (macdDifList d fp sp)[i]? := by
  have e1 := length_macdDifList d fp sp
  have e2 := length_macdDeaList d fp sp gp
  have e3 := length_macdMacdList d fp sp gp
  obtain ⟨e4, e5⟩ := macd_chain_lengths d fp sp gp
  rw [applyMacd_chain]
  rw [colVal_setColAll_ne _ _ _ _ _ (by simp) (by omega),
    colVal_setColAll_ne _ _ _ _ _ (by simp) (by omega),
    colVal_setColAll_self _ _ _ _ (by omega) (by omega),
    List.getElem?_eq_getElem (by omega)]

theorem colVal_applyMacd_dea (d : List Row) (fp sp gp : ℕ) (i : ℕ) (hi : i < d.length) :
    colVal (applyMacd d fp sp gp) ColKey.macdDea i = (macdDeaList d fp sp gp)[i]? := by
  have e2 := length_macdDeaList d fp sp gp
  have e3 := length_macdMacdList d fp sp gp
  obtain ⟨e4, e5⟩ := macd_chain_lengths d fp sp gp
  rw [applyMacd_chain]
  rw [colVal_setColAll_ne _ _ _ _ _ (by simp) (by omega),
    colVal_setColAll_self _ _ _ _ (by omega) (by omega),
    List.getElem?_eq_getElem (by omega)]

theorem colVal_applyMacd_macd (d : List Row) (fp sp gp : ℕ) (i : ℕ) (hi : i < d.length) :
    colVal (applyMacd d fp sp gp) ColKey.macdMacd i = (macdMacdList d fp sp gp)[i]? := by
  have e3 := length_macdMacdList d fp sp gp
  obtain ⟨e4, e5⟩ := macd_chain_lengths d fp sp gp
  rw [applyMacd_chain]
  rw [colVal_setColAll_self _ _ _ _ (by omega) (by omega),
    List.getElem?_eq_getElem (by omega)]

theorem colVal_applyMacd_other (d : List Row) (fp sp gp : ℕ) (k : ColKey)
    (h1 : k ≠ ColKey.macdDif) (h2 : k ≠ ColKey.macdDea) (h3 : k ≠ ColKey.macdMacd)
    (i : ℕ) :
    colVal (applyMacd d fp sp gp) k i = colVal d k i := by
  have e1 := length_macdDifList d fp sp
  have e2 := length_macdDeaList d fp sp gp
  have e3 := length_macdMacdList d fp sp gp
  obtain ⟨e4, e5⟩ := macd_chain_lengths d fp sp gp
  rw [applyMacd_chain]
  rw [colVal_setColAll_ne _ _ _ _ _ (Ne.symm h3) (by omega),
    colVal_setColAll_ne _ _ _ _ _ (Ne.symm h2) (by omega),
    colVal_setColAll_ne _ _ _ _ _ (Ne.symm h1) (by omega)]

/-! Re-applying a write phase to a frame that already carries its columns
is the identity. -/

theorem length_applyMa (d : List Row) (P : List ℕ) : (applyMa d P).length = d.length := by
  have h := congrArg List.length (map_applyMa Row.trade_date (fun _ _ => rfl) d P)
  simpa using h

theorem length_applyRsi (d : List Row) (P : List ℕ) : (applyRsi d P).length = d.length := by
  have h := congrArg List.length (map_applyRsi Row.trade_date (fun _ _ => rfl) d P)
  simpa using h

theorem length_applyKdj (d : List Row) (pe kp dp : ℕ) :
    (applyKdj d pe kp dp).length = d.length := by
  have h := congrArg List.length (map_applyKdj Row.trade_date (fun _ _ => rfl) d pe kp dp)
  simpa using h

theorem length_applyBoll (d : List Row) (pe : ℕ) (sdm : ℚ) :
    (applyBoll d pe sdm).length = d.length := by
  have h := congrArg List.length (map_applyBoll Row.trade_date (fun _ _ => rfl) d pe sdm)
  simpa using h

theorem length_applyMacd (d : List Row) (fp sp gp : ℕ) :
    (applyMacd d fp sp gp).length = d.length := by
  have h := congrArg List.length (map_applyMacd Row.trade_date (fun _ _ => rfl) d fp sp gp)
  simpa using h

theorem applyMa_fix (R : List Row) (P : List ℕ)
    (hma : ∀ p ∈ P, ∀ i, i < R.length →
      colVal R (ColKey.ma p) i = ((rollingMean p (closes R)).map FV.num)[i]?)
    (hvol : ∀ q ∈ volPeriodsCfg, ∀ i, i < R.length →
      colVal R (ColKey.volMa q) i = ((rollingMean q (vols R)).map FV.num)[i]?)
    (hpct : ∀ i, i < R.length →
      colVal R ColKey.pctChg i
        = ((pctChange (closes R)).map (fun v => FV.mul v (FV.num 100)))[i]?) :
    applyMa R P = R := by
  simp only [applyMa]
  have h2 : P.foldl (fun d p => setColAll d (ColKey.ma p)
      ((rollingMean p (closes d)).map FV.num)) R = R :=
    foldl_fix _ R P (fun p hp => setColAll_self_eq _ _ _
      (by simp [length_rollingMean, length_closes]) (hma p hp))
  rw [h2]
  have h3 : volPeriodsCfg.foldl (fun d q => setColAll d (ColKey.volMa q)
      ((rollingMean q (vols d)).map FV.num)) R = R :=
    foldl_fix _ R volPeriodsCfg (fun q hq => setColAll_self_eq _ _ _
      (by simp [length_rollingMean, length_vols]) (hvol q hq))
  rw [h3]
  exact setColAll_self_eq _ _ _ (by simp [length_pctChange, length_closes]) hpct

theorem applyRsi_fix (R : List Row) (P : List ℕ)
    (hrsi : ∀ q ∈ P, ∀ i, i < R.length →
      colVal R (ColKey.rsi q) i = (rsiCol q (diffFV (closes R)))[i]?) :
    applyRsi R P = R := by
  simp only [applyRsi]
  exact foldl_fix _ R P (fun q hq => setColAll_self_eq _ _ _
    (by rw [length_rsiCol, length_diffFV, length_closes]) (hrsi q hq))

theorem applyKdj_fix (R : List Row) (pe kp dp : ℕ)
    (hk : ∀ i, i < R.length → colVal R ColKey.kCol i = (kdjKList R pe kp)[i]?)
    (hd : ∀ i, i < R.length → colVal R ColKey.dCol i = (kdjDList R pe kp dp)[i]?)
    (hj : ∀ i, i < R.length → colVal R ColKey.jCol i = (kdjJList R pe kp dp)[i]?) :
    applyKdj R pe kp dp = R := by
  rw [applyKdj_chain]
  rw [setColAll_self_eq R ColKey.kCol _ (length_kdjKList R pe kp) hk]
  rw [setColAll_self_eq R ColKey.dCol _ (length_kdjDList R pe kp dp) hd]
  exact setColAll_self_eq R ColKey.jCol _ (length_kdjJList R pe kp dp) hj

theorem applyBoll_fix (R : List Row) (pe : ℕ) (sdm : ℚ)
    (hmid : ∀ i, i < R.length → colVal R ColKey.bollMid i = (bollMidList R pe)[i]?)
    (hup : ∀ i, i < R.length → colVal R ColKey.bollUpper i = (bollUpList R pe sdm)[i]?)
    (hlo : ∀ i, i < R.length → colVal R ColKey.bollLower i = (bollLoList R pe sdm)[i]?) :
    applyBoll R pe sdm = R := by
  rw [applyBoll_chain]
  rw [setColAll_self_eq R ColKey.bollMid _ (length_bollMidList R pe) hmid]
  rw [setColAll_self_eq R ColKey.bollUpper _ (length_bollUpList R pe sdm) hup]
  exact setColAll_self_eq R ColKey.bollLower _ (length_bollLoList R pe sdm) hlo

theorem applyMacd_fix (R : List Row) (fp sp gp : ℕ)
    (hdif : ∀ i, i < R.length → colVal R ColKey.macdDif i = (macdDifList R fp sp)[i]?)
    (hdea : ∀ i, i < R.length → colVal R ColKey.macdDea i = (macdDeaList R fp sp gp)[i]?)
    (hmac : ∀ i, i < R.length → colVal R ColKey.macdMacd i = (macdMacdList R fp sp gp)[i]?) :
    applyMacd R fp sp gp = R := by
  rw [applyMacd_chain]
  rw [setColAll_self_eq R ColKey.macdDif _ (length_macdDifList R fp sp) hdif]
  rw [setColAll_self_eq R ColKey.macdDea _ (length_macdDeaList R fp sp gp) hdea]
  exact setColAll_self_eq R ColKey.macdMacd _ (length_macdMacdList R fp sp gp) hmac

/-- Re-running the whole write pipeline on its own output changes
nothing: every column write re-computes the same values from the unchanged
base columns and overwrites in place. -/
theorem R5_fix (d : List Row) : R5 (R5 d) = R5 d := by
  unfold R5
  set X1 := applyMa d maPeriodsCfg with hX1
  set X2 := applyRsi X1 rsiPeriodsCfg with hX2
  set X3 := applyKdj X2 kdjPeriodCfg kdjKCfg kdjDCfg with hX3
  set X4 := applyBoll X3 bollPeriodCfg bollStdCfg with hX4
  set R := applyMacd X4 macdFastCfg macdSlowCfg macdSignalCfg with hRdef
  -- lengths
  have hl1 : X1.length = d.length := length_applyMa d maPeriodsCfg
  have hl2 : X2.length = d.length := by rw [hX2, length_applyRsi, hl1]
  have hl3 : X3.length = d.length := by rw [hX3, length_applyKdj, hl2]
  have hl4 : X4.length = d.length := by rw [hX4, length_applyBoll, hl3]
  have hlR : R.length = d.length := by rw [hRdef, length_applyMacd, hl4]
  -- base columns
  have hc1 : closes X1 = closes d := map_applyMa Row.close (fun _ _ => rfl) d maPeriodsCfg
  have hc2 : closes X2 = closes d :=
    (map_applyRsi Row.close (fun _ _ => rfl) X1 rsiPeriodsCfg).trans hc1
  have hc3 : closes X3 = closes d :=
    (map_applyKdj Row.close (fun _ _ => rfl) X2 kdjPeriodCfg kdjKCfg kdjDCfg).trans hc2
  have hc4 : closes X4 = closes d :=
    (map_applyBoll Row.close (fun _ _ => rfl) X3 bollPeriodCfg bollStdCfg).trans hc3
  have hcR : closes R = closes d :=
    (map_applyMacd Row.close (fun _ _ => rfl) X4 macdFastCfg macdSlowCfg macdSignalCfg).trans hc4
  have hh1 : highs X1 = highs d := map_applyMa Row.high (fun _ _ => rfl) d maPeriodsCfg
  have hh2 : highs X2 = highs d :=
    (map_applyRsi Row.high (fun _ _ => rfl) X1 rsiPeriodsCfg).trans hh1
  have hh3 : highs X3 = highs d :=
    (map_applyKdj Row.high (fun _ _ => rfl) X2 kdjPeriodCfg kdjKCfg kdjDCfg).trans hh2
  have hh4 : highs X4 = highs d :=
    (map_applyBoll Row.high (fun _ _ => rfl) X3 bollPeriodCfg bollStdCfg).trans hh3
  have hhR : highs R = highs d :=
    (map_applyMacd Row.high (fun _ _ => rfl) X4 macdFastCfg macdSlowCfg macdSignalCfg).trans hh4
  have hw1 : lows X1 = lows d := map_applyMa Row.low (fun _ _ => rfl) d maPeriodsCfg
  have hw2 : lows X2 = lows d :=
    (map_applyRsi Row.low (fun _ _ => rfl) X1 rsiPeriodsCfg).trans hw1
  have hw3 : lows X3 = lows d :=
    (map_applyKdj Row.low (fun _ _ => rfl) X2 kdjPeriodCfg kdjKCfg kdjDCfg).trans hw2
  have hw4 : lows X4 = lows d :=
    (map_applyBoll Row.low (fun _ _ => rfl) X3 bollPeriodCfg bollStdCfg).trans hw3
  have hwR : lows R = lows d :=
    (map_applyMacd Row.low (fun _ _ => rfl) X4 macdFastCfg macdSlowCfg macdSignalCfg).trans hw4
  have hvR : vols R = vols d := by
    have hv1 : vols X1 = vols d := map_applyMa Row.vol (fun _ _ => rfl) d maPeriodsCfg
    have hv2 : vols X2 = vols d :=
      (map_applyRsi Row.vol (fun _ _ => rfl) X1 rsiPeriodsCfg).trans hv1
    have hv3 : vols X3 = vols d :=
      (map_applyKdj Row.vol (fun _ _ => rfl) X2 kdjPeriodCfg kdjKCfg kdjDCfg).trans hv2
    have hv4 : vols X4 = vols d :=
      (map_applyBoll Row.vol (fun _ _ => rfl) X3 bollPeriodCfg bollStdCfg).trans hv3
    exact (map_applyMacd Row.vol (fun _ _ => rfl) X4 macdFastCfg macdSlowCfg
      macdSignalCfg).trans hv4
  -- canonical value lists are functions of the base columns
  have hkX2 : kdjKList X2 kdjPeriodCfg kdjKCfg = kdjKList d kdjPeriodCfg kdjKCfg := by
    unfold kdjKList
    rw [hh2, hw2, hc2]
  have hkR : kdjKList R kdjPeriodCfg kdjKCfg = kdjKList d kdjPeriodCfg kdjKCfg := by
    unfold kdjKList
    rw [hhR, hwR, hcR]
  have hdX2 : kdjDList X2 kdjPeriodCfg kdjKCfg kdjDCfg
      = kdjDList d kdjPeriodCfg kdjKCfg kdjDCfg := by
    unfold kdjDList
    rw [hkX2]
  have hdR : kdjDList R kdjPeriodCfg kdjKCfg kdjDCfg
      = kdjDList d kdjPeriodCfg kdjKCfg kdjDCfg := by
    unfold kdjDList
    rw [hkR]
  have hjX2 : kdjJList X2 kdjPeriodCfg kdjKCfg kdjDCfg
      = kdjJList d kdjPeriodCfg kdjKCfg kdjDCfg := by
    unfold kdjJList
    rw [hkX2, hdX2]
  have hjR : kdjJList R kdjPeriodCfg kdjKCfg kdjDCfg
      = kdjJList d kdjPeriodCfg kdjKCfg kdjDCfg := by
    unfold kdjJList
    rw [hkR, hdR]
  have hmidX3 : bollMidList X3 bollPeriodCfg = bollMidList d bollPeriodCfg := by
    unfold bollMidList
    rw [hc3]
  have hmidR : bollMidList R bollPeriodCfg = bollMidList d bollPeriodCfg := by
    unfold bollMidList
    rw [hcR]
  have hstdX3 : bollStdList X3 bollPeriodCfg = rollingStd bollPeriodCfg (closes d) := by
    unfold bollStdList
    rw [closes_setColAll _ _ _ (by rw [length_bollMidList]), hc3]
  have hstdR : bollStdList R bollPeriodCfg = rollingStd bollPeriodCfg (closes d) := by
    unfold bollStdList
    rw [closes_setColAll _ _ _ (by rw [length_bollMidList]), hcR]
  have hupX3 : bollUpList X3 bollPeriodCfg bollStdCfg
      = List.zipWith (fun m s => FV.add m (FV.mul s (FV.num bollStdCfg)))
        (bollMidList d bollPeriodCfg) (rollingStd bollPeriodCfg (closes d)) := by
    unfold bollUpList
    rw [hmidX3, hstdX3]
  have hupR : bollUpList R bollPeriodCfg bollStdCfg
      = List.zipWith (fun m s => FV.add m (FV.mul s (FV.num bollStdCfg)))
        (bollMidList d bollPeriodCfg) (rollingStd bollPeriodCfg (closes d)) := by
    unfold bollUpList
    rw [hmidR, hstdR]
  have hloX3 : bollLoList X3 bollPeriodCfg bollStdCfg
      = List.zipWith (fun m s => FV.sub m (FV.mul s (FV.num bollStdCfg)))
        (bollMidList d bollPeriodCfg) (rollingStd bollPeriodCfg (closes d)) := by
    unfold bollLoList
    rw [hmidX3, hstdX3]
  have hloR : bollLoList R bollPeriodCfg bollStdCfg
      = List.zipWith (fun m s => FV.sub m (FV.mul s (FV.num bollStdCfg)))
        (bollMidList d bollPeriodCfg) (rollingStd bollPeriodCfg (closes d)) := by
    unfold bollLoList
    rw [hmidR, hstdR]
  have hdifX4 : macdDifList X4 macdFastCfg macdSlowCfg
      = macdDifList d macdFastCfg macdSlowCfg := by
    unfold macdDifList
    rw [hc4]
  have hdifR : macdDifList R macdFastCfg macdSlowCfg
      = macdDifList d macdFastCfg macdSlowCfg := by
    unfold macdDifList
    rw [hcR]
  have hdeaX4 : macdDeaList X4 macdFastCfg macdSlowCfg macdSignalCfg
      = macdDeaList d macdFastCfg macdSlowCfg macdSignalCfg := by
    unfold macdDeaList
    rw [hdifX4]
  have hdeaR : macdDeaList R macdFastCfg macdSlowCfg macdSignalCfg
      = macdDeaList d macdFastCfg macdSlowCfg macdSignalCfg := by
    unfold macdDeaList
    rw [hdifR]
  have hmacX4 : macdMacdList X4 macdFastCfg macdSlowCfg macdSignalCfg
      = macdMacdList d macdFastCfg macdSlowCfg macdSignalCfg := by
    unfold macdMacdList
    rw [hdifX4, hdeaX4]
  have hmacR : macdMacdList R macdFastCfg macdSlowCfg macdSignalCfg
      = macdMacdList d macdFastCfg macdSlowCfg macdSignalCfg := by
    unfold macdMacdList
    rw [hdifR, hdeaR]
  -- contents of R, column by column
  have hma : ∀ p ∈ maPeriodsCfg, ∀ i, i < R.length →
      colVal R (ColKey.ma p) i = ((rollingMean p (closes R)).map FV.num)[i]? := by
    intro p hp i hi
    rw [hRdef, colVal_applyMacd_other _ _ _ _ _ (by simp) (by simp) (by simp) i,
      hX4, colVal_applyBoll_other _ _ _ _ (by simp) (by simp) (by simp) i,
      hX3, colVal_applyKdj_other _ _ _ _ _ (by simp) (by simp) (by simp) i,
      hX2, colVal_applyRsi_other _ _ _ (fun q => by simp) i,
      hX1, colVal_applyMa_ma d maPeriodsCfg p hp i (by omega), hcR]
  have hvol : ∀ q ∈ volPeriodsCfg, ∀ i, i < R.length →
      colVal R (ColKey.volMa q) i = ((rollingMean q (vols R)).map FV.num)[i]? := by
    intro q hq i hi
    rw [hRdef, colVal_applyMacd_other _ _ _ _ _ (by simp) (by simp) (by simp) i,
      hX4, colVal_applyBoll_other _ _ _ _ (by simp) (by simp) (by simp) i,
      hX3, colVal_applyKdj_other _ _ _ _ _ (by simp) (by simp) (by simp) i,
      hX2, colVal_applyRsi_other _ _ _ (fun q2 => by simp) i,
      hX1, colVal_applyMa_volMa d maPeriodsCfg q hq i (by omega), hvR]
  have hpct : ∀ i, i < R.length →
      colVal R ColKey.pctChg i
        = ((pctChange (closes R)).map (fun v => FV.mul v (FV.num 100)))[i]? := by
    intro i hi
    rw [hRdef, colVal_applyMacd_other _ _ _ _ _ (by simp) (by simp) (by simp) i,
      hX4, colVal_applyBoll_other _ _ _ _ (by simp) (by simp) (by simp) i,
      hX3, colVal_applyKdj_other _ _ _ _ _ (by simp) (by simp) (by simp) i,
      hX2, colVal_applyRsi_other _ _ _ (fun q2 => by simp) i,
      hX1, colVal_applyMa_pct d maPeriodsCfg i (by omega), hcR]
  have hrsi : ∀ q ∈ rsiPeriodsCfg, ∀ i, i < R.length →
      colVal R (ColKey.rsi q) i = (rsiCol q (diffFV (closes R)))[i]? := by
    intro q hq i hi
    rw [hRdef, colVal_applyMacd_other _ _ _ _ _ (by simp) (by simp) (by simp) i,
      hX4, colVal_applyBoll_other _ _ _ _ (by simp) (by simp) (by simp) i,
      hX3, colVal_applyKdj_other _ _ _ _ _ (by simp) (by simp) (by simp) i,
      hX2, colVal_applyRsi_rsi X1 rsiPeriodsCfg q hq i (by omega), hc1, hcR]
  have hk : ∀ i, i < R.length →
      colVal R ColKey.kCol i = (kdjKList R kdjPeriodCfg kdjKCfg)[i]? := by
    intro i hi
    rw [hRdef, colVal_applyMacd_other _ _ _ _ _ (by simp) (by simp) (by simp) i,
      hX4, colVal_applyBoll_other _ _ _ _ (by simp) (by simp) (by simp) i,
      hX3, colVal_applyKdj_k X2 kdjPeriodCfg kdjKCfg kdjDCfg i (by omega), hkX2, hkR]
  have hd2 : ∀ i, i < R.length →
      colVal R ColKey.dCol i = (kdjDList R kdjPeriodCfg kdjKCfg kdjDCfg)[i]? := by
    intro i hi
    rw [hRdef, colVal_applyMacd_other _ _ _ _ _ (by simp) (by simp) (by simp) i,
      hX4, colVal_applyBoll_other _ _ _ _ (by simp) (by simp) (by simp) i,
      hX3, colVal_applyKdj_d X2 kdjPeriodCfg kdjKCfg kdjDCfg i (by omega), hdX2, hdR]
  have hj : ∀ i, i < R.length →
      colVal R ColKey.jCol i = (kdjJList R kdjPeriodCfg kdjKCfg kdjDCfg)[i]? := by
    intro i hi
    rw [hRdef, colVal_applyMacd_other _ _ _ _ _ (by simp) (by simp) (by simp) i,
      hX4, colVal_applyBoll_other _ _ _ _ (by simp) (by simp) (by simp) i,
      hX3, colVal_applyKdj_j X2 kdjPeriodCfg kdjKCfg kdjDCfg i (by omega), hjX2, hjR]
  have hmid : ∀ i, i < R.length →
      colVal R ColKey.bollMid i = (bollMidList R bollPeriodCfg)[i]? := by
    intro i hi
    rw [hRdef, colVal_applyMacd_other _ _ _ _ _ (by simp) (by simp) (by simp) i,
      hX4, colVal_applyBoll_mid X3 bollPeriodCfg bollStdCfg i (by omega), hmidX3, hmidR]
  have hup : ∀ i, i < R.length →
      colVal R ColKey.bollUpper i = (bollUpList R bollPeriodCfg bollStdCfg)[i]? := by
    intro i hi
    rw [hRdef, colVal_applyMacd_other _ _ _ _ _ (by simp) (by simp) (by simp) i,
      hX4, colVal_applyBoll_upper X3 bollPeriodCfg bollStdCfg i (by omega), hupX3, hupR]
  have hlo : ∀ i, i < R.length →
      colVal R ColKey.bollLower i = (bollLoList R bollPeriodCfg bollStdCfg)[i]? := by
    intro i hi
    rw [hRdef, colVal_applyMacd_other _ _ _ _ _ (by simp) (by simp) (by simp) i,
      hX4, colVal_applyBoll_lower X3 bollPeriodCfg bollStdCfg i (by omega), hloX3, hloR]
  have hdif : ∀ i, i < R.length →
      colVal R ColKey.macdDif i = (macdDifList R macdFastCfg macdSlowCfg)[i]? := by
    intro i hi
    rw [hRdef, colVal_applyMacd_dif X4 macdFastCfg macdSlowCfg macdSignalCfg i (by omega),
      hdifX4, hdifR]
  have hdea : ∀ i, i < R.length →
      colVal R ColKey.macdDea i
        = (macdDeaList R macdFastCfg macdSlowCfg macdSignalCfg)[i]? := by
    intro i hi
    rw [hRdef, colVal_applyMacd_dea X4 macdFastCfg macdSlowCfg macdSignalCfg i (by omega),
      hdeaX4, hdeaR]
  have hmac : ∀ i, i < R.length →
      colVal R ColKey.macdMacd i
        = (macdMacdList R macdFastCfg macdSlowCfg macdSignalCfg)[i]? := by
    intro i hi
    rw [hRdef, colVal_applyMacd_macd X4 macdFastCfg macdSlowCfg macdSignalCfg i (by omega),
      hmacX4, hmacR]
  -- the second application collapses, stage by stage
  rw [applyMa_fix R maPeriodsCfg hma hvol hpct,
    applyRsi_fix R rsiPeriodsCfg hrsi,
    applyKdj_fix R kdjPeriodCfg kdjKCfg kdjDCfg hk hd2 hj,
    applyBoll_fix R bollPeriodCfg bollStdCfg hmid hup hlo,
    applyMacd_fix R macdFastCfg macdSlowCfg macdSignalCfg hdif hdea hmac]

/-- On a nonempty series, the composed pipeline is "sort once, then apply
all writes": every later stage re-sorts an already-sorted frame, which is a
no-op. -/
theorem pipeline_eq (rows : List Row) (hne : rows ≠ []) :
    calculate_technical_indicators rows = R5 (sortRows rows) := by
  unfold calculate_technical_indicators R5
  have h0 : (0 : ℕ) < rows.length := List.length_pos.mpr hne
  rw [calculate_ma_eq rows hne]
  have hl1 : (applyMa (sortRows rows) maPeriodsCfg).length = rows.length := by
    rw [length_applyMa, length_sortRows]
  have hne1 : applyMa (sortRows rows) maPeriodsCfg ≠ [] := by
    intro hcon
    rw [hcon] at hl1
    simp at hl1
    omega
  have hs1 : List.Sorted (· ≤ ·) (dates (applyMa (sortRows rows) maPeriodsCfg)) := by
    have hd1 : dates (applyMa (sortRows rows) maPeriodsCfg) = dates (sortRows rows) :=
      map_applyMa Row.trade_date (fun _ _ => rfl) _ _
    rw [hd1]
    exact dates_sortRows_sorted rows
  rw [calculate_rsi_eq _ hne1, sortRows_eq_self _ hs1]
  have hl2 : (applyRsi (applyMa (sortRows rows) maPeriodsCfg) rsiPeriodsCfg).length
      = rows.length := by
    rw [length_applyRsi, hl1]
  have hne2 : applyRsi (applyMa (sortRows rows) maPeriodsCfg) rsiPeriodsCfg ≠ [] := by
    intro hcon
    rw [hcon] at hl2
    simp at hl2
    omega
  have hs2 : List.Sorted (· ≤ ·)
      (dates (applyRsi (applyMa (sortRows rows) maPeriodsCfg) rsiPeriodsCfg)) := by
    have hd2 : dates (applyRsi (applyMa (sortRows rows) maPeriodsCfg) rsiPeriodsCfg)
        = dates (applyMa (sortRows rows) maPeriodsCfg) :=
      map_applyRsi Row.trade_date (fun _ _ => rfl) _ _
    rw [hd2]
    exact hs1
  rw [calculate_kdj_eq _ hne2, sortRows_eq_self _ hs2]
  have hl3 : (applyKdj (applyRsi (applyMa (sortRows rows) maPeriodsCfg) rsiPeriodsCfg)
      kdjPeriodCfg kdjKCfg kdjDCfg).length = rows.length := by
    rw [length_applyKdj, hl2]
  have hne3 : applyKdj (applyRsi (applyMa (sortRows rows) maPeriodsCfg) rsiPeriodsCfg)
      kdjPeriodCfg kdjKCfg kdjDCfg ≠ [] := by
    intro hcon
    rw [hcon] at hl3
    simp at hl3
    omega
  have hs3 : List.Sorted (· ≤ ·)
      (dates (applyKdj (applyRsi (applyMa (sortRows rows) maPeriodsCfg) rsiPeriodsCfg)
        kdjPeriodCfg kdjKCfg kdjDCfg)) := by
    have hd3 : dates (applyKdj (applyRsi (applyMa (sortRows rows) maPeriodsCfg)
        rsiPeriodsCfg) kdjPeriodCfg kdjKCfg kdjDCfg)
        = dates (applyRsi (applyMa (sortRows rows) maPeriodsCfg) rsiPeriodsCfg) :=
      map_applyKdj Row.trade_date (fun _ _ => rfl) _ _ _ _
    rw [hd3]
    exact hs2
  rw [calculate_bollinger_bands_eq _ hne3, sortRows_eq_self _ hs3]
  have hl4 : (applyBoll (applyKdj (applyRsi (applyMa (sortRows rows) maPeriodsCfg)
      rsiPeriodsCfg) kdjPeriodCfg kdjKCfg kdjDCfg) bollPeriodCfg bollStdCfg).length
      = rows.length := by
    rw [length_applyBoll, hl3]
  have hne4 : applyBoll (applyKdj (applyRsi (applyMa (sortRows rows) maPeriodsCfg)
      rsiPeriodsCfg) kdjPeriodCfg kdjKCfg kdjDCfg) bollPeriodCfg bollStdCfg ≠ [] := by
    intro hcon
    rw [hcon] at hl4
    simp at hl4
    omega
  have hs4 : List.Sorted (· ≤ ·)
      (dates (applyBoll (applyKdj (applyRsi (applyMa (sortRows rows) maPeriodsCfg)
        rsiPeriodsCfg) kdjPeriodCfg kdjKCfg kdjDCfg) bollPeriodCfg bollStdCfg)) := by
    have hd4 : dates (applyBoll (applyKdj (applyRsi (applyMa (sortRows rows)
        maPeriodsCfg) rsiPeriodsCfg) kdjPeriodCfg kdjKCfg kdjDCfg)
        bollPeriodCfg bollStdCfg)
        = dates (applyKdj (applyRsi (applyMa (sortRows rows) maPeriodsCfg)
          rsiPeriodsCfg) kdjPeriodCfg kdjKCfg kdjDCfg) :=
      map_applyBoll Row.trade_date (fun _ _ => rfl) _ _ _
    rw [hd4]
    exact hs3
  rw [calculate_macd_eq _ hne4, sortRows_eq_self _ hs4]

/-- C9: the indicator computation is idempotent and free of hidden state.
`computeIndicators` (`calculate_technical_indicators`, modelled from the
spec as the composition of the five indicator functions with the config
defaults) applied a second time to its own output — re-deriving every
derived column from the base `close`/`high`/`low`/`vol` columns — returns
the augmented series unchanged, derived columns included.  Stated under the
data-model invariant of unique timestamps, which makes the re-sort of the
already-sorted output independent of the sorting algorithm's tie
behaviour. -/
theorem computeIndicators_idempotent (rows : List Row)
    (_hnd : (rows.map Row.trade_date).Nodup) :
    calculate_technical_indicators (calculate_technical_indicators rows)
      = calculate_technical_indicators rows := by
  cases rows with
  | nil => rfl
  | cons r rest =>
    have hne : (r :: rest : List Row) ≠ [] := by simp
    rw [pipeline_eq (r :: rest) hne]
    have hlenR : (R5 (sortRows (r :: rest))).length = (r :: rest).length := by
      rw [length_R5, length_sortRows]
    have hne2 : R5 (sortRows (r :: rest)) ≠ [] := by
      intro hcon
      rw [hcon] at hlenR
      simp at hlenR
    have hsorted : List.Sorted (· ≤ ·) (dates (R5 (sortRows (r :: rest)))) := by
      rw [dates_R5]
      exact dates_sortRows_sorted _
    rw [pipeline_eq _ hne2, sortRows_eq_self _ hsorted, R5_fix]

/-- C9 witness: idempotence at a concrete two-row series with distinct
timestamps. -/
theorem computeIndicators_idempotent_witness :
    calculate_technical_indicators
        (calculate_technical_indicators [⟨0, 1, 1, 1, 1, []⟩, ⟨1, 2, 2, 2, 1, []⟩])
      = calculate_technical_indicators [⟨0, 1, 1, 1, 1, []⟩, ⟨1, 2, 2, 2, 1, []⟩] :=
  computeIndicators_idempotent [⟨0, 1, 1, 1, 1, []⟩, ⟨1, 2, 2, 2, 1, []⟩] (by decide)

/-! ## C10: the indicator functions never mutate their argument frame -/

theorem hread_halloc (h : Heap) (dd : List Row) (r : ℕ) (hr : r < h.length) :
    hread (halloc h dd) r = hread h r := by
  unfold hread halloc
  exact List.getD_append h [dd] [] r hr

theorem hread_hwrite_ne (h : Heap) (r2 : ℕ) (dd : List Row) (r : ℕ) (hne : r ≠ r2) :
    hread (hwrite h r2 dd) r = hread h r := by
  unfold hread hwrite
  simp [List.getD, List.getElem?_set_ne (Ne.symm hne)]

theorem hread_foldl_hwrite {ι : Type} (Q : List ι) (rw2 : ℕ) (F : Heap → ι → List Row)
    (r : ℕ) (hne : r ≠ rw2) :
    ∀ hh : Heap, hread (Q.foldl (fun acc q => hwrite acc rw2 (F acc q)) hh) r
      = hread hh r := by
  induction Q with
  | nil => intro hh; rfl
  | cons q Q ih =>
    intro hh
    simp only [List.foldl_cons]
    rw [ih, hread_hwrite_ne _ _ _ _ hne]

theorem calculate_ma_heap_no_mutation (h : Heap) (r : ℕ) (P : List ℕ)
    (hr : r < h.length) :
    hread (calculate_ma_heap h r P).1 r = hread h r := by
  unfold calculate_ma_heap
  cases hc : hread h r with
  | nil => simp [hc]
  | cons x xs =>
    simp only [hc]
    have hne2 : r ≠ (halloc h (x :: xs)).length := by
      simp [halloc]
      omega
    rw [hread_hwrite_ne _ _ _ _ hne2,
      hread_foldl_hwrite volPeriodsCfg _ _ r hne2,
      hread_foldl_hwrite P _ _ r hne2,
      hread_halloc _ _ _ (by simp [halloc]; omega),
      hread_halloc _ _ _ (by omega)]
    exact hc

theorem calculate_rsi_heap_no_mutation (h : Heap) (r : ℕ) (P : List ℕ)
    (hr : r < h.length) :
    hread (calculate_rsi_heap h r P).1 r = hread h r := by
  unfold calculate_rsi_heap
  cases hc : hread h r with
  | nil => simp [hc]
  | cons x xs =>
    simp only [hc]
    have hne2 : r ≠ (halloc h (x :: xs)).length := by
      simp [halloc]
      omega
    rw [hread_foldl_hwrite P _ _ r hne2,
      hread_halloc _ _ _ (by simp [halloc]; omega),
      hread_halloc _ _ _ (by omega)]
    exact hc

theorem calculate_kdj_heap_no_mutation (h : Heap) (r : ℕ) (pe kp dp : ℕ)
    (hr : r < h.length) :
    hread (calculate_kdj_heap h r pe kp dp).1 r = hread h r := by
  unfold calculate_kdj_heap
  cases hc : hread h r with
  | nil => simp [hc]
  | cons x xs =>
    simp only [hc]
    have hne2 : r ≠ (halloc h (x :: xs)).length := by
      simp [halloc]
      omega
    rw [hread_hwrite_ne _ _ _ _ hne2, hread_hwrite_ne _ _ _ _ hne2,
      hread_hwrite_ne _ _ _ _ hne2,
      hread_halloc _ _ _ (by simp [halloc]; omega),
      hread_halloc _ _ _ (by omega)]
    exact hc

theorem calculate_bollinger_bands_heap_no_mutation (h : Heap) (r : ℕ) (pe : ℕ) (sdm : ℚ)
    (hr : r < h.length) :
    hread (calculate_bollinger_bands_heap h r pe sdm).1 r = hread h r := by
  unfold calculate_bollinger_bands_heap
  cases hc : hread h r with
  | nil => simp [hc]
  | cons x xs =>
    simp only [hc]
    have hne2 : r ≠ (halloc h (x :: xs)).length := by
      simp [halloc]
      omega
    rw [hread_hwrite_ne _ _ _ _ hne2, hread_hwrite_ne _ _ _ _ hne2,
      hread_hwrite_ne _ _ _ _ hne2,
      hread_halloc _ _ _ (by simp [halloc]; omega),
      hread_halloc _ _ _ (by omega)]
    exact hc

theorem calculate_macd_heap_no_mutation (h : Heap) (r : ℕ) (fp sp gp : ℕ)
    (hr : r < h.length) :
    hread (calculate_macd_heap h r fp sp gp).1 r = hread h r := by
  unfold calculate_macd_heap
  cases hc : hread h r with
  | nil => simp [hc]
  | cons x xs =>
    simp only [hc]
    have hne2 : r ≠ (halloc h (x :: xs)).length := by
      simp [halloc]
      omega
    rw [hread_hwrite_ne _ _ _ _ hne2, hread_hwrite_ne _ _ _ _ hne2,
      hread_hwrite_ne _ _ _ _ hne2,
      hread_halloc _ _ _ (by simp [halloc]; omega),
      hread_halloc _ _ _ (by omega)]
    exact hc

/-- C10: none of the five indicator functions mutates the DataFrame object
passed to it.  Each body is re-traced over an explicit heap — `df.copy()`
and `df.sort_values(...)` allocate fresh objects, `df[col] = ...` writes
through a reference — and every in-place write targets the freshly
allocated sorted copy, so after the call the object behind the caller's
reference is unchanged. -/
theorem indicators_no_mutation (h : Heap) (r : ℕ) (P Q : List ℕ)
    (pe kp dp bp fp sp gp : ℕ) (sdm : ℚ) (hr : r < h.length) :
    hread (calculate_ma_heap h r P).1 r = hread h r ∧
    hread (calculate_rsi_heap h r Q).1 r = hread h r ∧
    hread (calculate_kdj_heap h r pe kp dp).1 r = hread h r ∧
    hread (calculate_bollinger_bands_heap h r bp sdm).1 r = hread h r ∧
    hread (calculate_macd_heap h r fp sp gp).1 r = hread h r :=
  ⟨calculate_ma_heap_no_mutation h r P hr,
   calculate_rsi_heap_no_mutation h r Q hr,
   calculate_kdj_heap_no_mutation h r pe kp dp hr,
   calculate_bollinger_bands_heap_no_mutation h r bp sdm hr,
   calculate_macd_heap_no_mutation h r fp sp gp hr⟩

/-- C10 witness: a one-object heap holding a one-row frame; after each
call the object behind reference `0` is unchanged. -/
theorem indicators_no_mutation_witness :
    hread (calculate_ma_heap [[⟨0, 1, 1, 1, 1, []⟩]] 0 [5]).1 0
        = hread [[⟨0, 1, 1, 1, 1, []⟩]] 0 ∧
    hread (calculate_rsi_heap [[⟨0, 1, 1, 1, 1, []⟩]] 0 [6]).1 0
        = hread [[⟨0, 1, 1, 1, 1, []⟩]] 0 ∧
    hread (calculate_kdj_heap [[⟨0, 1, 1, 1, 1, []⟩]] 0 9 3 3).1 0
        = hread [[⟨0, 1, 1, 1, 1, []⟩]] 0 ∧
    hread (calculate_bollinger_bands_heap [[⟨0, 1, 1, 1, 1, []⟩]] 0 20 2).1 0
        = hread [[⟨0, 1, 1, 1, 1, []⟩]] 0 ∧
    hread (calculate_macd_heap [[⟨0, 1, 1, 1, 1, []⟩]] 0 12 26 9).1 0
        = hread [[⟨0, 1, 1, 1, 1, []⟩]] 0 :=
  indicators_no_mutation [[⟨0, 1, 1, 1, 1, []⟩]] 0 [5] [6] 9 3 3 20 12 26 9 2 (by decide)

end StockM
